import Mathlib

/-!
Verification of the résumé-template population and hybrid text-extraction
routines of this repository (`Placeholder_Insertion.py`, `Text_Extraction.py`).

Strings are modelled as `List Char`; Python's `str.replace` (left-to-right,
non-overlapping) and the `in` substring test are given executable definitions,
and the document tree (runs / paragraphs / cells / rows / tables) mirrors the
python-docx object model as the code uses it.
-/

abbrev Str := List Char

/-- Model of Python's `str.startswith` / list-prefix test. -/
def hasPref : Str → Str → Bool
  | [], _ => true
  | _ :: _, [] => false
  | p :: ps, c :: cs => p == c && hasPref ps cs

/-- Model of Python's `in` substring test. -/
def hasSub (pat : Str) : Str → Bool
  | [] => hasPref pat []
  | c :: rest => hasPref pat (c :: rest) || hasSub pat rest

/-- `pat` occurs as a contiguous substring of `s`. -/
def Occurs (pat s : Str) : Prop := ∃ a b, s = a ++ pat ++ b

theorem hasPref_iff {pat s : Str} : hasPref pat s = true ↔ ∃ t, s = pat ++ t := by
  induction pat generalizing s with
  | nil => simp [hasPref]
  | cons p ps ih =>
    cases s with
    | nil => simp [hasPref]
    | cons c cs =>
      simp only [hasPref, Bool.and_eq_true, beq_iff_eq]
      constructor
      · rintro ⟨rfl, h⟩
        obtain ⟨t, rfl⟩ := ih.mp h
        exact ⟨t, rfl⟩
      · rintro ⟨t, ht⟩
        injection ht with h1 h2
        exact ⟨h1.symm, ih.mpr ⟨t, h2⟩⟩

theorem hasSub_iff {pat s : Str} : hasSub pat s = true ↔ Occurs pat s := by
  induction s with
  | nil =>
    simp only [hasSub, hasPref_iff, Occurs]
    constructor
    · rintro ⟨t, ht⟩
      exact ⟨[], t, by simpa using ht⟩
    · rintro ⟨a, b, h⟩
      cases a with
      | nil => exact ⟨b, by simpa using h⟩
      | cons x xs => simp at h
  | cons c rest ih =>
    simp only [hasSub, Bool.or_eq_true, hasPref_iff, ih, Occurs]
    constructor
    · rintro (⟨t, ht⟩ | ⟨a, b, h⟩)
      · exact ⟨[], t, by simpa using ht⟩
      · exact ⟨c :: a, b, by simp [h]⟩
    · rintro ⟨a, b, h⟩
      cases a with
      | nil => exact Or.inl ⟨b, by simpa using h⟩
      | cons x xs =>
        injection h with h1 h2
        exact Or.inr ⟨xs, b, h2⟩

theorem not_occurs_nil {pat : Str} (h : pat ≠ []) : ¬ Occurs pat [] := by
  rintro ⟨a, b, hab⟩
  rcases List.append_eq_nil.mp ((List.append_eq_nil.mp hab.symm).1) with ⟨_, h2⟩
  exact h h2

theorem occurs_cons_of_occurs {pat s : Str} (c : Char) (h : Occurs pat s) :
    Occurs pat (c :: s) := by
  obtain ⟨a, b, rfl⟩ := h
  exact ⟨c :: a, b, rfl⟩

/-- An occurrence inside a part is an occurrence in the whole. -/
theorem occurs_of_occurs_middle {pat s x y : Str} (h : Occurs pat s) :
    Occurs pat (x ++ s ++ y) := by
  obtain ⟨a, b, rfl⟩ := h
  exact ⟨x ++ a, b ++ y, by simp⟩

theorem occurs_self (pat : Str) : Occurs pat pat := ⟨[], [], by simp⟩

/-- Membership of a character of the pattern in the host string. -/
theorem mem_of_occurs {pat s : Str} {c : Char} (hc : c ∈ pat) (h : Occurs pat s) :
    c ∈ s := by
  obtain ⟨a, b, rfl⟩ := h
  simp [hc]

/-- Fuel-indexed core of Python's `str.replace` (left-to-right, non-overlapping;
the `old = ""` case, unused by the code, is treated as the identity). -/
def pyReplaceGo (old new : Str) : Nat → Str → Str
  | _, [] => []
  | 0, s => s
  | fuel + 1, c :: rest =>
    if hasPref old (c :: rest) && !old.isEmpty then
      new ++ pyReplaceGo old new fuel ((c :: rest).drop old.length)
    else
      c :: pyReplaceGo old new fuel rest

/-- Model of Python's `str.replace`. -/
def pyReplace (old new s : Str) : Str := pyReplaceGo old new s.length s

theorem pyReplaceGo_fuel (old new : Str) :
    ∀ f₁ f₂ s, s.length ≤ f₁ → s.length ≤ f₂ →
      pyReplaceGo old new f₁ s = pyReplaceGo old new f₂ s := by
  intro f₁
  induction f₁ with
  | zero =>
    intro f₂ s hs _
    have : s = [] := List.eq_nil_of_length_eq_zero (Nat.le_zero.mp hs)
    subst this
    cases f₂ <;> rfl
  | succ f ih =>
    intro f₂ s hs hs2
    cases s with
    | nil => cases f₂ <;> rfl
    | cons c rest =>
      cases f₂ with
      | zero => simp at hs2
      | succ f₂' =>
        simp only [pyReplaceGo]
        by_cases hp : (hasPref old (c :: rest) && !old.isEmpty) = true
        · simp only [hp, if_true]
          have hne : old ≠ [] := by
            rcases Bool.and_eq_true_iff.mp hp with ⟨_, h2⟩
            simpa using h2
          have hlen : ((c :: rest).drop old.length).length ≤ rest.length := by
            have h1 : 1 ≤ old.length := by
              cases old with
              | nil => exact absurd rfl hne
              | cons _ _ => simp
            simp only [List.length_drop, List.length_cons]
            omega
          rw [ih f₂' _ (le_trans hlen (Nat.le_of_succ_le_succ hs))
            (le_trans hlen (Nat.le_of_succ_le_succ hs2))]
        · simp only [hp, if_false]
          rw [ih f₂' rest (Nat.le_of_succ_le_succ hs) (Nat.le_of_succ_le_succ hs2)]
          simp [Bool.eq_false_iff.mpr hp]

theorem pyReplace_nil (old new : Str) : pyReplace old new [] = [] := rfl

theorem pyReplace_cons (old new : Str) (c : Char) (rest : Str) :
    pyReplace old new (c :: rest) =
      if hasPref old (c :: rest) && !old.isEmpty then
        new ++ pyReplace old new ((c :: rest).drop old.length)
      else
        c :: pyReplace old new rest := by
  show pyReplaceGo old new (rest.length + 1) (c :: rest) = _
  simp only [pyReplaceGo]
  by_cases hp : (hasPref old (c :: rest) && !old.isEmpty) = true
  · simp only [hp, if_true]
    have hlen : ((c :: rest).drop old.length).length ≤ rest.length := by
      have hne : old ≠ [] := by
        rcases Bool.and_eq_true_iff.mp hp with ⟨_, h2⟩
        simpa using h2
      have h1 : 1 ≤ old.length := by
        cases old with
        | nil => exact absurd rfl hne
        | cons _ _ => simp
      simp only [List.length_drop, List.length_cons]
      omega
    rw [pyReplaceGo_fuel old new rest.length _ _ hlen (le_refl _)]
    rfl
  · simp only [hp, if_false]
    rw [pyReplaceGo_fuel old new rest.length rest.length rest (le_refl _) (le_refl _)]
    rfl

/-- If the pattern does not occur, `replace` is the identity (as in Python). -/
theorem pyReplace_of_not_occurs {old s : Str} (new : Str) (h : ¬ Occurs old s) :
    pyReplace old new s = s := by
  induction s with
  | nil => rfl
  | cons c rest ih =>
    rw [pyReplace_cons]
    have hp : hasPref old (c :: rest) = false := by
      by_contra hcon
      have := hasPref_iff.mp (Bool.of_not_eq_false hcon)
      obtain ⟨t, ht⟩ := this
      exact h ⟨[], t, by simpa using ht⟩
    simp only [hp, Bool.false_and, Bool.false_eq_true, if_false]
    rw [ih (fun hocc => h (occurs_cons_of_occurs c hocc))]

/-! ## Placeholder tokens (template file contract, spec section 6) -/

def kNAME : Str := "{NAME}".toList
def kCONTACT : Str := "{CONTACT}".toList
def kEMAIL : Str := "{EMAIL}".toList
def kNATIONALITY : Str := "{NATIONALITY}".toList
def kSUMMARY : Str := "{SUMMARY}".toList
def kDEGREE : Str := "{DEGREE}".toList
def kINSTITUTION : Str := "{INSTITUTION}".toList
def kEDUYEAR : Str := "{EDUYEAR}".toList
def kCGPA : Str := "{CGPA}".toList
def kSKILLS : Str := "{SKILLS}".toList
def kLANGUAGES : Str := "{LANGUAGES}".toList
def kCOMPANYNAME : Str := "{COMPANYNAME}".toList
def kDURATION : Str := "{DURATION}".toList
def kJOBTITLE : Str := "{JOBTITLE}".toList
def kJOBDESCRIPTION : Str := "{JOBDESCRIPTION}".toList
def kACHIEVEMENTS : Str := "{ACHIEVEMENTS}".toList
def kEDUCATION : Str := "{EDUCATION}".toList

def TOKENS : List Str :=
  [kNAME, kCONTACT, kEMAIL, kNATIONALITY, kSUMMARY, kDEGREE, kINSTITUTION,
   kEDUYEAR, kCGPA, kSKILLS, kLANGUAGES, kCOMPANYNAME, kDURATION, kJOBTITLE,
   kJOBDESCRIPTION, kACHIEVEMENTS, kEDUCATION]

/-- A brace character never occurs in `s`. -/
def BraceFree (s : Str) : Prop := ∀ c ∈ s, c ≠ '{' ∧ c ≠ '}'

def braceFree (s : Str) : Bool := s.all fun c => !(c == '{') && !(c == '}')

theorem braceFree_iff {s : Str} : braceFree s = true ↔ BraceFree s := by
  simp [braceFree, BraceFree, List.all_eq_true]

/-- Every placeholder token is an open brace, a brace-free word, a close brace. -/
def TokShape (t : Str) : Prop := ∃ w, t = '{' :: w ++ ['}'] ∧ BraceFree w

theorem tokShape_of_parts {t : Str} (w : Str) (h1 : t = '{' :: w ++ ['}'])
    (h2 : braceFree w = true) : TokShape t := ⟨w, h1, braceFree_iff.mp h2⟩

theorem tokens_shape : ∀ t ∈ TOKENS, TokShape t := by
  intro t ht
  simp only [TOKENS, List.mem_cons, List.not_mem_nil, or_false] at ht
  rcases ht with rfl|rfl|rfl|rfl|rfl|rfl|rfl|rfl|rfl|rfl|rfl|rfl|rfl|rfl|rfl|rfl|rfl
  · exact tokShape_of_parts "NAME".toList (by decide) (by decide)
  · exact tokShape_of_parts "CONTACT".toList (by decide) (by decide)
  · exact tokShape_of_parts "EMAIL".toList (by decide) (by decide)
  · exact tokShape_of_parts "NATIONALITY".toList (by decide) (by decide)
  · exact tokShape_of_parts "SUMMARY".toList (by decide) (by decide)
  · exact tokShape_of_parts "DEGREE".toList (by decide) (by decide)
  · exact tokShape_of_parts "INSTITUTION".toList (by decide) (by decide)
  · exact tokShape_of_parts "EDUYEAR".toList (by decide) (by decide)
  · exact tokShape_of_parts "CGPA".toList (by decide) (by decide)
  · exact tokShape_of_parts "SKILLS".toList (by decide) (by decide)
  · exact tokShape_of_parts "LANGUAGES".toList (by decide) (by decide)
  · exact tokShape_of_parts "COMPANYNAME".toList (by decide) (by decide)
  · exact tokShape_of_parts "DURATION".toList (by decide) (by decide)
  · exact tokShape_of_parts "JOBTITLE".toList (by decide) (by decide)
  · exact tokShape_of_parts "JOBDESCRIPTION".toList (by decide) (by decide)
  · exact tokShape_of_parts "ACHIEVEMENTS".toList (by decide) (by decide)
  · exact tokShape_of_parts "EDUCATION".toList (by decide) (by decide)

/-- `a` is a prefix of `b`. -/
def IsPref (a b : Str) : Prop := ∃ t, b = a ++ t

theorem hasPref_iff_isPref {a b : Str} : hasPref a b = true ↔ IsPref a b := hasPref_iff

theorem tokShape_ne_nil {t : Str} (h : TokShape t) : t ≠ [] := by
  obtain ⟨w, rfl, _⟩ := h
  simp

/-- Two brace-free words followed by a closing brace: if one brace-terminated
word is a prefix of the other's extension, the words agree. -/
theorem braced_pref_eq {kw tw : Str} (hkw : BraceFree kw) (htw : BraceFree tw) :
    ∀ {y : Str}, IsPref (kw ++ ['}']) (tw ++ '}' :: y) → kw = tw := by
  induction kw generalizing tw with
  | nil =>
    intro y h
    obtain ⟨t, ht⟩ := h
    cases tw with
    | nil => rfl
    | cons c tw' =>
      simp only [List.nil_append, List.cons_append] at ht
      injection ht with h1 _
      exact absurd h1 (htw c (by simp)).2
  | cons a kw' ih =>
    intro y h
    obtain ⟨t, ht⟩ := h
    cases tw with
    | nil =>
      simp only [List.nil_append, List.cons_append] at ht
      injection ht with h1 _
      exact absurd h1.symm (hkw a (by simp)).2
    | cons c tw' =>
      simp only [List.cons_append] at ht
      injection ht with h1 h2
      have : kw' = tw' := by
        refine ih (fun x hx => hkw x (by simp [hx])) (fun x hx => htw x (by simp [hx]))
          (y := y) ⟨t, ?_⟩
        simpa using h2
      rw [h1, this]

/-- A token extended by anything and equal to a token is that token exactly. -/
theorem tok_pref_eq {t1 t2 r : Str} (h1 : TokShape t1) (h2 : TokShape t2)
    (h : t1 ++ r = t2) : t1 = t2 ∧ r = [] := by
  obtain ⟨w1, rfl, hw1⟩ := h1
  obtain ⟨w2, rfl, hw2⟩ := h2
  simp only [List.cons_append, List.append_assoc, List.singleton_append] at h
  injection h with _ h2'
  have heq : w2 = w1 := by
    refine braced_pref_eq hw2 hw1 (y := r) ⟨[], ?_⟩
    simp [← h2']
  subst heq
  have : '}' :: r = ['}'] := List.append_cancel_left h2'
  injection this with _ h4
  exact ⟨by simp, h4⟩

/-- A token is never a strict prefix-occurrence of a different token's start. -/
theorem tok_not_pref {key t : Str} (hk : TokShape key) (ht : TokShape t)
    (hne : key ≠ t) (y : Str) : ¬ IsPref key (t ++ y) := by
  rintro ⟨s, hs⟩
  obtain ⟨kw, rfl, hkw⟩ := hk
  obtain ⟨tw, rfl, htw⟩ := ht
  simp only [List.cons_append, List.append_assoc, List.singleton_append] at hs
  injection hs with _ h2
  have heq : kw = tw := by
    refine braced_pref_eq hkw htw (y := y) ⟨s, ?_⟩
    simpa using h2
  exact hne (by rw [heq])

/-- `replace` passes over a block that contains no open brace. -/
theorem pyReplace_no_open {key : Str} (new : Str) {k' : Str} (hkey : key = '{' :: k') :
    ∀ {x : Str} (y : Str), (∀ c ∈ x, c ≠ '{') →
      pyReplace key new (x ++ y) = x ++ pyReplace key new y := by
  intro x
  induction x with
  | nil => intro y _; rfl
  | cons c x' ih =>
    intro y hx
    rw [List.cons_append, pyReplace_cons]
    have hp : hasPref key (c :: (x' ++ y)) = false := by
      subst hkey
      simp only [hasPref, Bool.and_eq_false_iff]
      left
      exact beq_eq_false_iff_ne.mpr (fun h => (hx c (by simp)) h.symm)
    simp only [hp, Bool.false_and, Bool.false_eq_true, if_false]
    rw [ih y (fun d hd => hx d (by simp [hd]))]
    simp

theorem hasPref_append_self (p t : Str) : hasPref p (p ++ t) = true := by
  induction p with
  | nil => rfl
  | cons c cs ih => simp [hasPref, ih]

/-- `replace` fires on an occurrence of the pattern at the head. -/
theorem pyReplace_key_head {key : Str} (new y : Str) (hk : key ≠ []) :
    pyReplace key new (key ++ y) = new ++ pyReplace key new y := by
  cases key with
  | nil => exact absurd rfl hk
  | cons k ks =>
    rw [List.cons_append, pyReplace_cons]
    have hp : hasPref (k :: ks) (k :: (ks ++ y)) = true := hasPref_append_self _ _
    have hc : (k :: (ks ++ y)) = (k :: ks) ++ y := by simp
    simp only [hp, Bool.true_and, List.isEmpty_cons, Bool.not_false, if_true]
    rw [hc, List.drop_left]

/-- `replace` passes over a complete occurrence of a different token. -/
theorem pyReplace_tok_head {key t : Str} (new y : Str) (hk : TokShape key)
    (ht : TokShape t) (hne : key ≠ t) :
    pyReplace key new (t ++ y) = t ++ pyReplace key new y := by
  obtain ⟨tw, rfl, htw⟩ := ht
  obtain ⟨kw, hkeq, hkw⟩ := hk
  rw [show ('{' :: tw ++ ['}']) ++ y = '{' :: (tw ++ ['}'] ++ y) from by simp,
    pyReplace_cons]
  have hp : hasPref key ('{' :: (tw ++ ['}'] ++ y)) = false := by
    by_contra hcon
    have hpref := hasPref_iff_isPref.mp (Bool.of_not_eq_false hcon)
    have : IsPref key (('{' :: tw ++ ['}']) ++ y) := by
      obtain ⟨s, hs⟩ := hpref
      exact ⟨s, by simpa using hs⟩
    exact tok_not_pref ⟨kw, hkeq, hkw⟩ ⟨tw, rfl, htw⟩ hne y this
  simp only [hp, Bool.false_and, Bool.false_eq_true, if_false]
  have hnb : ∀ c ∈ tw ++ ['}'], c ≠ '{' := by
    intro c hc
    rcases List.mem_append.mp hc with h | h
    · exact (htw c h).1
    · simp only [List.mem_singleton] at h
      subst h
      decide
  calc '{' :: pyReplace key new (tw ++ ['}'] ++ y)
      = '{' :: pyReplace key new ((tw ++ ['}']) ++ y) := by rw [List.append_assoc]
    _ = '{' :: ((tw ++ ['}']) ++ pyReplace key new y) := by
        rw [pyReplace_no_open new hkeq y hnb]
    _ = ('{' :: tw ++ ['}']) ++ pyReplace key new y := by simp

/-! ## Segmented strings: a run's text decomposed into brace-free literals and
whole placeholder tokens.  This is the precise form of the template invariant
"a placeholder token appears wholly within a single run's text" (spec section 3)
under which the replacement chain is exact. -/

inductive Piece where
  | lit : Str → Piece
  | tok : Str → Piece
deriving DecidableEq, Repr

def Piece.render : Piece → Str
  | .lit s => s
  | .tok t => t

def renderPs : List Piece → Str
  | [] => []
  | p :: ps => p.render ++ renderPs ps

def PieceOK : Piece → Prop
  | .lit s => BraceFree s
  | .tok t => t ∈ TOKENS

/-- The piece-level image of replacing token `key` by literal `val`. -/
def substPiece (key val : Str) : Piece → Piece
  | .lit s => .lit s
  | .tok t => if t = key then .lit val else .tok t

theorem renderPs_append (a b : List Piece) :
    renderPs (a ++ b) = renderPs a ++ renderPs b := by
  induction a with
  | nil => rfl
  | cons p ps ih => simp [renderPs, ih]

theorem substPiece_ok {key val : Str} (hval : BraceFree val) {p : Piece}
    (hp : PieceOK p) : PieceOK (substPiece key val p) := by
  cases p with
  | lit s => exact hp
  | tok t =>
    simp only [substPiece]
    by_cases h : t = key
    · simp [h, PieceOK, hval]
    · simpa [h, PieceOK] using hp

theorem substPiece_no_key {key val : Str} (p : Piece) :
    substPiece key val p ≠ Piece.tok key := by
  cases p with
  | lit s => simp [substPiece]
  | tok t =>
    simp only [substPiece]
    by_cases h : t = key <;> simp [h]

/-- Python's `replace` acts piecewise on a segmented string: the affected
pieces are exactly the occurrences of `key` as a whole token. -/
theorem pyReplace_renderPs {key val : Str} (hk : key ∈ TOKENS)
    {ps : List Piece} (hps : ∀ p ∈ ps, PieceOK p) :
    pyReplace key val (renderPs ps) = renderPs (ps.map (substPiece key val)) := by
  have hkshape : TokShape key := tokens_shape key hk
  obtain ⟨kw, hkeq, _⟩ := hkshape
  induction ps with
  | nil => rfl
  | cons p ps ih =>
    have hpOK : PieceOK p := hps p (by simp)
    have hpsOK : ∀ q ∈ ps, PieceOK q := fun q hq => hps q (by simp [hq])
    cases p with
    | lit s =>
      have hs : ∀ c ∈ s, c ≠ '{' := fun c hc => (hpOK c hc).1
      calc pyReplace key val (renderPs (Piece.lit s :: ps))
          = pyReplace key val (s ++ renderPs ps) := rfl
        _ = s ++ pyReplace key val (renderPs ps) := by
            rw [pyReplace_no_open val (show key = '{' :: (kw ++ ['}']) by simpa using hkeq) _ hs]
        _ = s ++ renderPs (ps.map (substPiece key val)) := by rw [ih hpsOK]
        _ = renderPs ((Piece.lit s :: ps).map (substPiece key val)) := rfl
    | tok t =>
      by_cases ht : t = key
      · subst ht
        calc pyReplace t val (renderPs (Piece.tok t :: ps))
            = pyReplace t val (t ++ renderPs ps) := rfl
          _ = val ++ pyReplace t val (renderPs ps) :=
              pyReplace_key_head val _ (tokShape_ne_nil (tokens_shape t hk))
          _ = val ++ renderPs (ps.map (substPiece t val)) := by rw [ih hpsOK]
          _ = renderPs ((Piece.tok t :: ps).map (substPiece t val)) := by
              simp [renderPs, substPiece, Piece.render]
      · have htTok : t ∈ TOKENS := hpOK
        calc pyReplace key val (renderPs (Piece.tok t :: ps))
            = pyReplace key val (t ++ renderPs ps) := rfl
          _ = t ++ pyReplace key val (renderPs ps) := by
              rw [pyReplace_tok_head val _ (tokens_shape key hk) (tokens_shape t htTok)
                (fun h => ht h.symm)]
          _ = t ++ renderPs (ps.map (substPiece key val)) := by rw [ih hpsOK]
          _ = renderPs ((Piece.tok t :: ps).map (substPiece key val)) := by
              simp [renderPs, substPiece, Piece.render, ht]

/-- Prefix decomposition across an append. -/
theorem pref_append_split {p : Str} :
    ∀ {x y : Str}, (∃ b, x ++ y = p ++ b) →
      (∃ b, x = p ++ b) ∨ (∃ k2, p = x ++ k2 ∧ ∃ b, y = k2 ++ b) := by
  intro x
  induction x generalizing p with
  | nil =>
    intro y h
    exact Or.inr ⟨p, by simp, by simpa using h⟩
  | cons c x' ih =>
    intro y h
    obtain ⟨b, hb⟩ := h
    cases p with
    | nil => exact Or.inl ⟨c :: x', by simp⟩
    | cons q qs =>
      simp only [List.cons_append] at hb
      injection hb with h1 h2
      rcases ih (p := qs) ⟨b, h2⟩ with ⟨b', hb'⟩ | ⟨k2, hk2, hb'⟩
      · subst h1
        exact Or.inl ⟨b', by simp [hb']⟩
      · subst h1
        exact Or.inr ⟨k2, by simp [hk2], hb'⟩

/-- Occurrence decomposition across an append: wholly left, wholly right,
or genuinely spanning the boundary. -/
theorem occurs_append_split {pat : Str} :
    ∀ {x y : Str}, Occurs pat (x ++ y) →
      Occurs pat x ∨ Occurs pat y ∨
        ∃ k1 k2, pat = k1 ++ k2 ∧ k1 ≠ [] ∧ k2 ≠ [] ∧
          (∃ a, x = a ++ k1) ∧ (∃ b, y = k2 ++ b) := by
  intro x
  induction x with
  | nil =>
    intro y h
    exact Or.inr (Or.inl (by simpa using h))
  | cons c x' ih =>
    intro y h
    obtain ⟨a, b, hab⟩ := h
    cases a with
    | nil =>
      simp only [List.nil_append] at hab
      have hsplit := pref_append_split (p := pat) (x := c :: x') (y := y) ⟨b, by simpa using hab⟩
      rcases hsplit with ⟨b', hb'⟩ | ⟨k2, hk2, hb'⟩
      · exact Or.inl ⟨[], b', by simpa using hb'⟩
      · rcases eq_or_ne k2 [] with rfl | hk2ne
        · exact Or.inl ⟨[], [], by simp [hk2]⟩
        · exact Or.inr (Or.inr ⟨c :: x', k2, hk2, by simp, hk2ne, ⟨[], by simp⟩, hb'⟩)
    | cons a0 a'  =>
      simp only [List.cons_append] at hab
      injection hab with h1 h2
      rcases ih (y := y) ⟨a', b, by simpa using h2⟩ with h | h | ⟨k1, k2, hpat, hk1, hk2, ⟨a2, ha2⟩, hb⟩
      · exact Or.inl (occurs_cons_of_occurs c h)
      · exact Or.inr (Or.inl h)
      · exact Or.inr (Or.inr ⟨k1, k2, hpat, hk1, hk2, ⟨c :: a2, by simp [ha2]⟩, hb⟩)

theorem open_mem_of_tokShape {key : Str} (hk : TokShape key) : '{' ∈ key := by
  obtain ⟨kw, rfl, _⟩ := hk
  simp

theorem not_occurs_of_no_open {key s : Str} (hk : TokShape key)
    (hs : ∀ c ∈ s, c ≠ '{') : ¬ Occurs key s := by
  intro hocc
  exact hs '{' (mem_of_occurs (open_mem_of_tokShape hk) hocc) rfl

/-- One whole token does not contain an occurrence of a different token. -/
theorem not_occurs_tok_in_tok {key t : Str} (hk : TokShape key) (ht : TokShape t)
    (hne : t ≠ key) : ¬ Occurs key t := by
  rintro ⟨a, b, hab⟩
  obtain ⟨tw, hteq, htw⟩ := ht
  cases a with
  | nil =>
    simp only [List.nil_append] at hab
    have := tok_pref_eq hk ⟨tw, hteq, htw⟩ hab.symm
    exact hne this.1.symm
  | cons a0 a' =>
    rw [hteq] at hab
    have hab' : '{' :: (tw ++ ['}']) = a0 :: (a' ++ (key ++ b)) := by simpa using hab
    injection hab' with h1 h2
    have hopen : '{' ∈ tw ++ ['}'] := by
      rw [h2]
      exact List.mem_append.mpr (Or.inr (List.mem_append.mpr
        (Or.inl (open_mem_of_tokShape hk))))
    rcases List.mem_append.mp hopen with h | h
    · exact (htw '{' h).1 rfl
    · simp at h

theorem open_mem_left_part {key k1 k2 : Str} (hk : TokShape key)
    (hpat : key = k1 ++ k2) (hk1 : k1 ≠ []) : '{' ∈ k1 := by
  obtain ⟨kw, hkeq, _⟩ := hk
  cases k1 with
  | nil => exact absurd rfl hk1
  | cons x k1' =>
    rw [hkeq] at hpat
    have : '{' :: (kw ++ ['}']) = x :: (k1' ++ k2) := by simpa using hpat
    injection this with h1 _
    simp [← h1]

/-- No occurrence of `key` in a segmented string free of `key` token pieces. -/
theorem not_occurs_renderPs {key : Str} (hk : key ∈ TOKENS) :
    ∀ {ps : List Piece}, (∀ p ∈ ps, PieceOK p) → Piece.tok key ∉ ps →
      ¬ Occurs key (renderPs ps) := by
  have hkshape : TokShape key := tokens_shape key hk
  intro ps
  induction ps with
  | nil =>
    intro _ _
    exact not_occurs_nil (tokShape_ne_nil hkshape)
  | cons p ps ih =>
    intro hps hno hocc
    have hpOK : PieceOK p := hps p (by simp)
    have hocc' : Occurs key (p.render ++ renderPs ps) := hocc
    rcases occurs_append_split hocc' with h | h | hspan
    · cases p with
      | lit s => exact not_occurs_of_no_open hkshape (fun c hc => (hpOK c hc).1) h
      | tok t =>
        have htTok : t ∈ TOKENS := hpOK
        have htne : t ≠ key := by
          intro heq
          exact hno (by simp [heq])
        exact not_occurs_tok_in_tok hkshape (tokens_shape t htTok) htne h
    · exact ih (fun q hq => hps q (by simp [hq])) (fun hmem => hno (by simp [hmem])) h
    · obtain ⟨k1, k2, hpat, hk1, hk2, ⟨a, ha⟩, _⟩ := hspan
      have hopen : '{' ∈ k1 := open_mem_left_part hkshape hpat hk1
      cases p with
      | lit s =>
        have ha2 : s = a ++ k1 := ha
        have : '{' ∈ s := by
          rw [ha2]
          exact List.mem_append.mpr (Or.inr hopen)
        exact (hpOK '{' this).1 rfl
      | tok t =>
        have htTok : t ∈ TOKENS := hpOK
        have ha2 : t = a ++ k1 := ha
        obtain ⟨tw, hteq, htw⟩ := tokens_shape t htTok
        cases a with
        | nil =>
          -- k1 is the whole token, so key = t ++ k2 with k2 nonempty
          have hk1t : k1 = t := by simpa using ha2.symm
          rw [hk1t] at hpat
          have := tok_pref_eq (tokens_shape t htTok) hkshape hpat.symm
          exact hk2 this.2
        | cons a0 a' =>
          rw [hteq] at ha2
          have ha' : '{' :: (tw ++ ['}']) = a0 :: (a' ++ k1) := by simpa using ha2
          injection ha' with _ h2
          have : '{' ∈ tw ++ ['}'] := by
            rw [h2]
            exact List.mem_append.mpr (Or.inr hopen)
          rcases List.mem_append.mp this with h | h
          · exact (htw '{' h).1 rfl
          · simp at h

/-- Occurrences of a token in a segmented string are exactly its token pieces. -/
theorem occurs_renderPs_iff {key : Str} (hk : key ∈ TOKENS)
    {ps : List Piece} (hps : ∀ p ∈ ps, PieceOK p) :
    Occurs key (renderPs ps) ↔ Piece.tok key ∈ ps := by
  constructor
  · intro hocc
    by_contra hno
    exact not_occurs_renderPs hk hps hno hocc
  · intro hmem
    obtain ⟨l1, l2, rfl⟩ := List.append_of_mem hmem
    refine ⟨renderPs l1, renderPs l2, ?_⟩
    rw [renderPs_append]
    simp [renderPs, Piece.render, List.append_assoc]

/-! ## Generic list helpers -/

def flat {α : Type} : List (List α) → List α
  | [] => []
  | x :: xs => x ++ flat xs

theorem flat_append {α : Type} (a b : List (List α)) :
    flat (a ++ b) = flat a ++ flat b := by
  induction a with
  | nil => rfl
  | cons x xs ih => simp [flat, ih]

/-- Removal of the first element equal to `x` (lxml `remove` removes one
element; the code removes each original template row exactly once). -/
def eraseFirst {α : Type} [DecidableEq α] (x : α) : List α → List α
  | [] => []
  | a :: as => if a = x then as else a :: eraseFirst x as

/-! ## Document model.

python-docx object tree as the code traverses it: a document holds body
paragraphs and tables; a table holds rows; a row holds cells; a cell holds
paragraphs; a paragraph holds styled runs.  `paragraph.text` concatenates run
texts, `cell.text` joins paragraph texts with a newline, and the code's
`row_text` concatenates cell texts. -/

structure Fmt where
  fontName : Option Str := none
  size : Option Nat := none
  bold : Option Bool := none
  italic : Option Bool := none
  underline : Option Bool := none
  color : Option Nat := none
deriving DecidableEq, Repr

structure Run where
  text : Str
  font : Fmt := {}
deriving DecidableEq, Repr

structure PFmt where
  alignment : Option Nat := none
  space_after : Option Nat := none
  space_before : Option Nat := none
  left_indent : Option Nat := none
  right_indent : Option Nat := none
deriving DecidableEq, Repr

structure Para where
  runs : List Run
  style : Option Str := none
  fmt : PFmt := {}
deriving DecidableEq, Repr

abbrev Cell := List Para
abbrev Row := List Cell
abbrev Table := List Row

structure Doc where
  body : List Para
  tables : List Table
deriving DecidableEq, Repr

def paraText (p : Para) : Str := flat (p.runs.map Run.text)

/-- `"\n".join` of the paragraph texts, as in python-docx `_Cell.text`. -/
def joinNl : List Str → Str
  | [] => []
  | [s] => s
  | s :: rest => s ++ '\n' :: joinNl rest

def cellText (c : Cell) : Str := joinNl (c.map paraText)

/-- `"".join(cell.text for cell in row.cells)` as in `generate_resume`. -/
def rowText (r : Row) : Str := flat (r.map cellText)

/-! ## Résumé data.

JSON fields consumed by `generate_resume`: scalar fields may be null
(`data.get(...)` with no default), list fields default to empty, and the
fields of education / work-experience entries are read with
`entry.get(key, "")`, so an absent key is the empty string. -/

structure EduEntry where
  degree : Str := []
  institution : Str := []
  year : Str := []
  cgpa : Str := []
deriving DecidableEq, Repr

structure WorkEntry where
  company_name : Str := []
  duration : Str := []
  job_title : Str := []
  job_description : List Str := []
  achievements : List Str := []
deriving DecidableEq, Repr

structure RData where
  name : Option Str := none
  contact_number : Option Str := none
  email : Option Str := none
  nationality : Option Str := none
  summary : Option Str := none
  skills : List Str := []
  languages : List Str := []
  education : List EduEntry := []
  work_experience : List WorkEntry := []
deriving DecidableEq, Repr

/-! ## Embedded functions of `Placeholder_Insertion.py` -/

/-- `replace_text_in_paragraph` (lines 12-16): for each run, if the key occurs
in the run's text, replace it there.  A key not wholly inside a single run's
text is left alone. -/
def replace_text_in_paragraph (p : Para) (key value : Str) : Para :=
  { p with runs := p.runs.map fun r =>
      if hasSub key r.text then { r with text := pyReplace key value r.text } else r }

/-- `copy_run_formatting` (lines 18-28): name, size, bold, italic, underline
are copied unconditionally; the rgb color only when set on the source. -/
def copy_run_formatting (src tgt : Fmt) : Fmt :=
  { fontName := src.fontName, size := src.size, bold := src.bold,
    italic := src.italic, underline := src.underline,
    color := match src.color with | some c => some c | none => tgt.color }

/-- `copy_paragraph_formatting` (lines 30-39): style plus the five paragraph
format attributes — on our model, the whole `PFmt`. -/
def copy_paragraph_formatting (src tgt : Para) : Para :=
  { tgt with style := src.style, fmt := src.fmt }

/-- `add_paragraph()` on a cell produces a default-formatted empty paragraph. -/
def freshPara : Para := { runs := [] }

/-! `replace_with_bullet_points` (lines 60-100), seen from the paragraph the
code is called on.  Empty list: the key is replaced by `""` in place and the
paragraph is kept.  No run containing the key: no-op.  Otherwise the original
paragraph is removed and new paragraphs are created with
`parent.add_paragraph()`, which places them at the END of the parent cell, in
this order: the bold "Achievements:" header (achievements key only, created
before the removal but equally at the cell end), one bullet per item, and one
empty spacer paragraph (achievements key only).  The result is the kept
paragraph (`some`) or `none`, together with the appended paragraphs.
(`bulletOutcome` below.) -/
/-- The bold "Achievements:" header paragraph (lines 81-86): fresh paragraph,
paragraph formatting copied from the original, run formatting copied from the
template run, then bold forced on. -/
def achHeaderPara (p : Para) (template_run : Run) : Para :=
  { runs := [{ text := "Achievements:".toList,
               font := { copy_run_formatting template_run.font {} with
                           bold := some true } }],
    style := p.style, fmt := p.fmt }

/-- One bullet paragraph (lines 92-96): "• " plus the item, paragraph
formatting from the original, run formatting from the template run. -/
def bulletPara (p : Para) (template_run : Run) (point : Str) : Para :=
  { runs := [{ text := "• ".toList ++ point,
               font := copy_run_formatting template_run.font {} }],
    style := p.style, fmt := p.fmt }

def bulletOutcome (p : Para) (key : Str) (bullet_points : List Str) :
    Option Para × List Para :=
  if bullet_points.isEmpty then
    (some (replace_text_in_paragraph p key []), [])
  else
    match p.runs.find? (fun r => hasSub key r.text) with
    | none => (some p, [])
    | some template_run =>
      (none,
        (if key = kACHIEVEMENTS then [achHeaderPara p template_run] else []) ++
          bullet_points.map (bulletPara p template_run) ++
          (if key = kACHIEVEMENTS then [freshPara] else []))

theorem bulletOutcome_empty {p : Para} {key : Str} {items : List Str}
    (he : items.isEmpty = true) :
    bulletOutcome p key items = (some (replace_text_in_paragraph p key []), []) := by
  simp [bulletOutcome, he]

theorem bulletOutcome_noRun {p : Para} {key : Str} {items : List Str}
    (he : items.isEmpty = false)
    (hf : p.runs.find? (fun r => hasSub key r.text) = none) :
    bulletOutcome p key items = (some p, []) := by
  simp [bulletOutcome, he, hf]

theorem bulletOutcome_found {p : Para} {key : Str} {items : List Str}
    {template_run : Run} (he : items.isEmpty = false)
    (hf : p.runs.find? (fun r => hasSub key r.text) = some template_run) :
    bulletOutcome p key items =
      (none,
        (if key = kACHIEVEMENTS then [achHeaderPara p template_run] else []) ++
          items.map (bulletPara p template_run) ++
          (if key = kACHIEVEMENTS then [freshPara] else [])) := by
  simp [bulletOutcome, he, hf]

/-- `replace_with_bullet_points` acting on the parent cell, with the original
paragraph at index `i` (removal in the code is by element identity). -/
def replace_with_bullet_points (cell : Cell) (i : Nat) (key : Str)
    (bullet_points : List Str) : Cell :=
  match cell.get? i with
  | none => cell
  | some p =>
    match bulletOutcome p key bullet_points with
    | (some p', _) => cell.set i p'
    | (none, appended) => cell.eraseIdx i ++ appended

/-! ## `generate_resume` (lines 104-243), stage by stage -/

def displayValue : Option Str → Str
  | none => []
  | some v => v

/-- Step 1 key/value pairs (lines 118-124). -/
def simple_replacements_data (data : RData) : List (Str × Option Str) :=
  [(kNAME, data.name), (kCONTACT, data.contact_number), (kEMAIL, data.email),
   (kNATIONALITY, data.nationality), (kSUMMARY, data.summary)]

/-- Step 1 body (lines 126-134), per paragraph: each pair in order, guarded by
`key in paragraph.text`, with None rendered as the empty string. -/
def scalarPass (data : RData) (p : Para) : Para :=
  (simple_replacements_data data).foldl
    (fun q kv =>
      if hasSub kv.1 (paraText q) then
        replace_text_in_paragraph q kv.1 (displayValue kv.2)
      else q) p

def stage1 (data : RData) (tables : List Table) : List Table :=
  tables.map fun t => t.map fun r => r.map fun c => c.map (scalarPass data)

/-- Step 2 (lines 136-174): education row-block expansion. -/
def education_placeholders : List Str := [kDEGREE, kINSTITUTION, kEDUYEAR, kCGPA]

def eduRowMatch (r : Row) : Bool :=
  education_placeholders.any fun ph => hasSub ph (rowText r)

def substEduPara (e : EduEntry) (p : Para) : Para :=
  replace_text_in_paragraph
    (replace_text_in_paragraph
      (replace_text_in_paragraph
        (replace_text_in_paragraph p kDEGREE e.degree)
        kINSTITUTION e.institution)
      kEDUYEAR e.year)
    kCGPA e.cgpa

def substEduRow (e : EduEntry) (r : Row) : Row :=
  r.map fun c => c.map (substEduPara e)

/-- `for template_row in reversed(template_rows): tbl.remove(template_row._tr)`
(lines 169-171 and 228-230). -/
def removeRows (template_rows : List Row) (t : Table) : Table :=
  template_rows.reverse.foldl (fun acc r => eraseFirst r acc) t

/-- Lines 141-171 for one table: detect template rows, append one substituted
clone per (entry, template row) pair — clones go to the table end via
`table._tbl.append` — then remove the original template rows. -/
def expandEduTable (t : Table) (education : List EduEntry) : Table :=
  let template_rows := t.filter eduRowMatch
  let appended := education.foldl
    (fun acc e => acc ++ template_rows.map (substEduRow e)) t
  removeRows template_rows appended

/-- The per-table loop with `continue` on no match and `break` after the first
table processed (lines 141-174). -/
def stage2 (education : List EduEntry) : List Table → List Table
  | [] => []
  | t :: ts =>
    if (t.filter eduRowMatch).isEmpty then t :: stage2 education ts
    else expandEduTable t education :: ts

/-- Step 3 pairs (lines 177-180). -/
def list_replacements (data : RData) : List (Str × List Str) :=
  [(kSKILLS, data.skills), (kLANGUAGES, data.languages)]

/-- Sequential `if key in p.text: replace_with_bullet_points(p, key, items)`
over a list of keyed lists, on one paragraph.  When an earlier key has already
removed the paragraph, a later key would make the code re-read the detached
element's stale text and then fail on removal; the theorems below therefore
assume no paragraph text contains two of the keys, and the model skips the
later keys in that unreached configuration. -/
def listKeysPass : List (Str × List Str) → Para → Option Para × List Para
  | [], p => (some p, [])
  | kv :: rest, p =>
    if hasSub kv.1 (paraText p) then
      match bulletOutcome p kv.1 kv.2 with
      | (some q, appended) =>
        match listKeysPass rest q with
        | (kept, appended') => (kept, appended ++ appended')
      | (none, appended) => (none, appended)
    else listKeysPass rest p

/-- Step 3 on one cell (lines 182-188): the loop iterates over the snapshot
`list(cell.paragraphs)`; kept paragraphs stay at their position, every
paragraph created by bullet expansion lands at the cell end in processing
order. -/
def stage3Cell (data : RData) (c : Cell) : Cell :=
  let results := c.map (listKeysPass (list_replacements data))
  results.filterMap Prod.fst ++ flat (results.map Prod.snd)

def stage3 (data : RData) (tables : List Table) : List Table :=
  tables.map fun t => t.map fun r => r.map (stage3Cell data)

/-- Step 4 (lines 190-233): work-experience row-block expansion. -/
def work_exp_placeholders : List Str :=
  [kCOMPANYNAME, kDURATION, kJOBTITLE, kJOBDESCRIPTION, kACHIEVEMENTS]

def workRowMatch (r : Row) : Bool :=
  work_exp_placeholders.any fun ph => hasSub ph (rowText r)

/-- Lines 214-226 on one cloned paragraph: three unguarded scalar
replacements, then the guarded job-description and achievements bullet
expansions. -/
def workParaPass (e : WorkEntry) (p : Para) : Option Para × List Para :=
  let p1 := replace_text_in_paragraph p kCOMPANYNAME e.company_name
  let p2 := replace_text_in_paragraph p1 kDURATION e.duration
  let p3 := replace_text_in_paragraph p2 kJOBTITLE e.job_title
  listKeysPass [(kJOBDESCRIPTION, e.job_description),
                (kACHIEVEMENTS, e.achievements)] p3

def substWorkRow (e : WorkEntry) (r : Row) : Row :=
  r.map fun c =>
    let results := c.map (workParaPass e)
    results.filterMap Prod.fst ++ flat (results.map Prod.snd)

def expandWorkTable (t : Table) (work : List WorkEntry) : Table :=
  let template_rows := t.filter workRowMatch
  let appended := work.foldl
    (fun acc e => acc ++ template_rows.map (substWorkRow e)) t
  removeRows template_rows appended

def stage4 (work : List WorkEntry) : List Table → List Table
  | [] => []
  | t :: ts =>
    if (t.filter workRowMatch).isEmpty then t :: stage4 work ts
    else expandWorkTable t work :: ts

/-- `generate_resume` (lines 104-243): the four stages in order.  Only
`doc.tables` is ever traversed; body paragraphs are untouched. -/
def generate_resume (data : RData) (doc : Doc) : Doc :=
  { body := doc.body,
    tables := stage4 data.work_experience
      (stage3 data (stage2 data.education (stage1 data doc.tables))) }

/-! ## Closed form of append-then-remove row expansion -/

theorem eraseFirst_head {α : Type} [DecidableEq α] (x : α) (t : List α) :
    eraseFirst x (x :: t) = t := by
  simp [eraseFirst]

theorem eraseFirst_cons_ne {α : Type} [DecidableEq α] {a x : α} (h : a ≠ x)
    (t : List α) : eraseFirst x (a :: t) = a :: eraseFirst x t := by
  simp [eraseFirst, h]

theorem eraseFirst_comm {α : Type} [DecidableEq α] (a b : α) :
    ∀ l : List α, eraseFirst a (eraseFirst b l) = eraseFirst b (eraseFirst a l) := by
  intro l
  induction l with
  | nil => rfl
  | cons c cs ih =>
    by_cases hca : c = a <;> by_cases hcb : c = b
    · subst hca; subst hcb; rfl
    · subst hca
      rw [eraseFirst_cons_ne (fun h => hcb h) cs, eraseFirst_head, eraseFirst_head]
    · subst hcb
      rw [eraseFirst_cons_ne (fun h => hca h) cs, eraseFirst_head, eraseFirst_head]
    · rw [eraseFirst_cons_ne (fun h => hcb h) cs, eraseFirst_cons_ne (fun h => hca h),
        eraseFirst_cons_ne (fun h => hca h) cs, eraseFirst_cons_ne (fun h => hcb h)]
      rw [ih]

theorem eraseFirst_foldl_comm {α : Type} [DecidableEq α] (a : α) :
    ∀ (es : List α) (t : List α),
      eraseFirst a (es.foldl (fun acc r => eraseFirst r acc) t) =
        es.foldl (fun acc r => eraseFirst r acc) (eraseFirst a t) := by
  intro es
  induction es with
  | nil => intro t; rfl
  | cons e es ih =>
    intro t
    simp only [List.foldl_cons]
    rw [ih, eraseFirst_comm]

/-- Erasing in reversed order equals erasing in order. -/
theorem foldl_reverse_eraseFirst {α : Type} [DecidableEq α] :
    ∀ (es t : List α),
      es.reverse.foldl (fun acc r => eraseFirst r acc) t =
        es.foldl (fun acc r => eraseFirst r acc) t := by
  intro es
  induction es with
  | nil => intro t; rfl
  | cons e es ih =>
    intro t
    simp only [List.reverse_cons, List.foldl_append, List.foldl_cons, List.foldl_nil]
    rw [ih, ← eraseFirst_foldl_comm]

theorem foldl_eraseFirst_cons_ne {α : Type} [DecidableEq α] {a : α} :
    ∀ {es : List α}, (∀ e ∈ es, e ≠ a) → ∀ t : List α,
      es.foldl (fun acc r => eraseFirst r acc) (a :: t) =
        a :: es.foldl (fun acc r => eraseFirst r acc) t := by
  intro es
  induction es with
  | nil => intro _ t; rfl
  | cons e es ih =>
    intro h t
    simp only [List.foldl_cons]
    rw [eraseFirst_cons_ne (fun hc => (h e (by simp)) hc.symm) t]
    exact ih (fun e' he' => h e' (by simp [he'])) _

/-- Appending clones then erasing the filtered originals (in any order, here
the reversed order the code uses) leaves the non-matching originals followed
by the clones. -/
theorem removeRows_spec {α : Type} [DecidableEq α] (p : α → Bool) :
    ∀ (l m : List α),
      (l.filter p).reverse.foldl (fun acc r => eraseFirst r acc) (l ++ m) =
        l.filter (fun x => !(p x)) ++ m := by
  intro l
  induction l with
  | nil =>
    intro m
    simp
  | cons a l ih =>
    intro m
    rw [foldl_reverse_eraseFirst]
    by_cases hp : p a = true
    · simp only [List.filter_cons, hp, if_true, List.foldl_cons, List.cons_append]
      rw [eraseFirst_head]
      rw [← foldl_reverse_eraseFirst, ih m]
      simp [hp]
    · have hpf : p a = false := Bool.eq_false_iff.mpr hp
      simp only [List.filter_cons, hpf, Bool.false_eq_true, if_false, List.cons_append]
      rw [foldl_eraseFirst_cons_ne
        (fun e he => by
          intro heq
          subst heq
          have := List.of_mem_filter he
          rw [hpf] at this
          exact Bool.false_ne_true this)]
      rw [← foldl_reverse_eraseFirst, ih m]
      simp [hpf]

theorem foldl_append_eq {α β : Type} (g : β → List α) :
    ∀ (entries : List β) (t : List α),
      entries.foldl (fun acc e => acc ++ g e) t = t ++ flat (entries.map g) := by
  intro entries
  induction entries with
  | nil => intro t; simp [flat]
  | cons e es ih =>
    intro t
    simp only [List.foldl_cons, List.map_cons, flat]
    rw [ih, List.append_assoc]

/-- New rows produced by education expansion: entry by entry, template row by
template row. -/
def eduNewRows (t : Table) (education : List EduEntry) : List Row :=
  flat (education.map fun e => (t.filter eduRowMatch).map (substEduRow e))

theorem expandEduTable_eq (t : Table) (education : List EduEntry) :
    expandEduTable t education =
      t.filter (fun r => !(eduRowMatch r)) ++ eduNewRows t education := by
  show removeRows (t.filter eduRowMatch)
      (education.foldl (fun acc e => acc ++ (t.filter eduRowMatch).map (substEduRow e)) t) = _
  rw [foldl_append_eq (fun e => (t.filter eduRowMatch).map (substEduRow e)) education t]
  exact removeRows_spec eduRowMatch t _

def workNewRows (t : Table) (work : List WorkEntry) : List Row :=
  flat (work.map fun e => (t.filter workRowMatch).map (substWorkRow e))

theorem expandWorkTable_eq (t : Table) (work : List WorkEntry) :
    expandWorkTable t work =
      t.filter (fun r => !(workRowMatch r)) ++ workNewRows t work := by
  show removeRows (t.filter workRowMatch)
      (work.foldl (fun acc e => acc ++ (t.filter workRowMatch).map (substWorkRow e)) t) = _
  rw [foldl_append_eq (fun e => (t.filter workRowMatch).map (substWorkRow e)) work t]
  exact removeRows_spec workRowMatch t _

theorem eduNewRows_length (t : Table) (education : List EduEntry) :
    (eduNewRows t education).length =
      education.length * (t.filter eduRowMatch).length := by
  unfold eduNewRows
  induction education with
  | nil => simp [flat]
  | cons e es ih =>
    simp only [List.map_cons, flat, List.length_append, List.length_map, ih,
      List.length_cons]
    ring

/-! ## Segmentation of document text, and its transport through the stages -/

def SegPs (allowed : Str → Prop) (ps : List Piece) (s : Str) : Prop :=
  (∀ q ∈ ps, PieceOK q) ∧ (∀ t, Piece.tok t ∈ ps → allowed t) ∧ renderPs ps = s

/-- `s` splits into brace-free literals and whole tokens drawn from `allowed`. -/
def Seg (allowed : Str → Prop) (s : Str) : Prop := ∃ ps, SegPs allowed ps s

def RunSeg (allowed : Str → Prop) (r : Run) : Prop := Seg allowed r.text
def ParaSeg (allowed : Str → Prop) (p : Para) : Prop := ∀ r ∈ p.runs, RunSeg allowed r
def CellSeg (allowed : Str → Prop) (c : Cell) : Prop := ∀ p ∈ c, ParaSeg allowed p
def RowSeg (allowed : Str → Prop) (r : Row) : Prop := ∀ c ∈ r, CellSeg allowed c
def TableSeg (allowed : Str → Prop) (t : Table) : Prop := ∀ r ∈ t, RowSeg allowed r
def TablesSeg (allowed : Str → Prop) (ts : List Table) : Prop := ∀ t ∈ ts, TableSeg allowed t

theorem seg_mono {A B : Str → Prop} (hab : ∀ t, A t → B t) {s : Str}
    (h : Seg A s) : Seg B s := by
  obtain ⟨ps, h1, h2, h3⟩ := h
  exact ⟨ps, h1, fun t ht => hab t (h2 t ht), h3⟩

theorem seg_nil {A : Str → Prop} : Seg A [] := ⟨[], by simp, by simp, rfl⟩

theorem seg_lit {A : Str → Prop} {s : Str} (h : BraceFree s) : Seg A s :=
  ⟨[Piece.lit s], by simpa [PieceOK], by simp, by simp [renderPs, Piece.render]⟩

theorem seg_append {A : Str → Prop} {s1 s2 : Str} (h1 : Seg A s1) (h2 : Seg A s2) :
    Seg A (s1 ++ s2) := by
  obtain ⟨ps1, ha1, hb1, hc1⟩ := h1
  obtain ⟨ps2, ha2, hb2, hc2⟩ := h2
  refine ⟨ps1 ++ ps2, ?_, ?_, ?_⟩
  · intro q hq
    rcases List.mem_append.mp hq with h | h
    · exact ha1 q h
    · exact ha2 q h
  · intro t ht
    rcases List.mem_append.mp ht with h | h
    · exact hb1 t h
    · exact hb2 t h
  · rw [renderPs_append, hc1, hc2]

theorem not_occurs_of_seg {key : Str} (hk : key ∈ TOKENS) {A : Str → Prop}
    {s : Str} (h : Seg A s) (hex : ¬ A key) : ¬ Occurs key s := by
  obtain ⟨ps, h1, h2, h3⟩ := h
  rw [← h3]
  exact not_occurs_renderPs hk h1 (fun hmem => hex (h2 key hmem))

theorem seg_restrict_of_not_occurs {key : Str} (hk : key ∈ TOKENS) {A : Str → Prop}
    {s : Str} (h : Seg A s) (hno : ¬ Occurs key s) :
    Seg (fun t => A t ∧ t ≠ key) s := by
  obtain ⟨ps, h1, h2, h3⟩ := h
  refine ⟨ps, h1, ?_, h3⟩
  intro t ht
  refine ⟨h2 t ht, ?_⟩
  rintro rfl
  exact hno (by rw [← h3]; exact (occurs_renderPs_iff hk h1).mpr ht)

theorem substPiece_eq_tok {key val : Str} {q : Piece} {t : Str}
    (h : substPiece key val q = Piece.tok t) : q = Piece.tok t ∧ t ≠ key := by
  cases q with
  | lit s => simp [substPiece] at h
  | tok u =>
    simp only [substPiece] at h
    by_cases hu : u = key
    · simp [hu] at h
    · simp only [hu, if_false] at h
      injection h with h1
      subst h1
      exact ⟨rfl, hu⟩

/-- Replacing a token by a brace-free value preserves segmentation and
eliminates that token. -/
theorem seg_replace {key val : Str} (hk : key ∈ TOKENS) (hval : BraceFree val)
    {A : Str → Prop} {s : Str} (h : Seg A s) :
    Seg (fun t => A t ∧ t ≠ key) (pyReplace key val s) := by
  obtain ⟨ps, h1, h2, h3⟩ := h
  rw [← h3, pyReplace_renderPs hk h1]
  refine ⟨ps.map (substPiece key val), ?_, ?_, rfl⟩
  · intro q hq
    obtain ⟨q0, hq0, rfl⟩ := List.mem_map.mp hq
    exact substPiece_ok hval (h1 q0 hq0)
  · intro t ht
    obtain ⟨q0, hq0, hqeq⟩ := List.mem_map.mp ht
    obtain ⟨hq0tok, htne⟩ := substPiece_eq_tok hqeq
    subst hq0tok
    exact ⟨h2 t hq0, htne⟩

/-! ### Aggregated texts -/

theorem flat_decomp {α : Type} {x : List α} :
    ∀ {l : List (List α)}, x ∈ l → ∃ a b, flat l = a ++ x ++ b := by
  intro l
  induction l with
  | nil => intro h; simp at h
  | cons y ys ih =>
    intro h
    rcases List.mem_cons.mp h with rfl | h
    · exact ⟨[], flat ys, by simp [flat]⟩
    · obtain ⟨a, b, hab⟩ := ih h
      exact ⟨y ++ a, b, by simp [flat, hab]⟩

theorem joinNl_decomp {s : Str} :
    ∀ {l : List Str}, s ∈ l → ∃ a b, joinNl l = a ++ s ++ b := by
  intro l
  induction l with
  | nil => intro h; simp at h
  | cons y ys ih =>
    intro h
    rcases List.mem_cons.mp h with rfl | h
    · cases ys with
      | nil => exact ⟨[], [], by simp [joinNl]⟩
      | cons z zs => exact ⟨[], '\n' :: joinNl (z :: zs), by simp [joinNl]⟩
    · obtain ⟨a, b, hab⟩ := ih h
      have hys : ys ≠ [] := by rintro rfl; simp at h
      cases ys with
      | nil => exact absurd rfl hys
      | cons z zs =>
        exact ⟨y ++ '\n' :: a, b, by simp [joinNl, hab]⟩

theorem seg_flat {A : Str → Prop} :
    ∀ {l : List Str}, (∀ s ∈ l, Seg A s) → Seg A (flat l) := by
  intro l
  induction l with
  | nil => intro _; exact seg_nil
  | cons y ys ih =>
    intro h
    exact seg_append (h y (by simp)) (ih (fun s hs => h s (by simp [hs])))

theorem seg_joinNl {A : Str → Prop} :
    ∀ {l : List Str}, (∀ s ∈ l, Seg A s) → Seg A (joinNl l) := by
  intro l
  induction l with
  | nil => intro _; exact seg_nil
  | cons y ys ih =>
    intro h
    cases ys with
    | nil => exact h y (by simp)
    | cons z zs =>
      have : Seg A ('\n' :: joinNl (z :: zs)) := by
        have hlit : Seg A ['\n'] := seg_lit (by intro c hc; simp at hc; simp [hc])
        have := seg_append hlit (ih (fun s hs => h s (by simp [hs])))
        simpa using this
      exact seg_append (h y (by simp)) this

theorem seg_paraText {A : Str → Prop} {p : Para} (h : ParaSeg A p) :
    Seg A (paraText p) := by
  refine seg_flat ?_
  intro s hs
  obtain ⟨r, hr, rfl⟩ := List.mem_map.mp hs
  exact h r hr

theorem seg_cellText {A : Str → Prop} {c : Cell} (h : CellSeg A c) :
    Seg A (cellText c) := by
  refine seg_joinNl ?_
  intro s hs
  obtain ⟨p, hp, rfl⟩ := List.mem_map.mp hs
  exact seg_paraText (h p hp)

theorem seg_rowText {A : Str → Prop} {r : Row} (h : RowSeg A r) :
    Seg A (rowText r) := by
  refine seg_flat ?_
  intro s hs
  obtain ⟨c, hc, rfl⟩ := List.mem_map.mp hs
  exact seg_cellText (h c hc)

theorem occurs_paraText_of_run {key : Str} {p : Para} {r : Run} (hr : r ∈ p.runs)
    (h : Occurs key r.text) : Occurs key (paraText p) := by
  obtain ⟨a, b, hab⟩ := flat_decomp (List.mem_map.mpr ⟨r, hr, rfl⟩)
  obtain ⟨x, y, hxy⟩ := h
  refine ⟨a ++ x, y ++ b, ?_⟩
  have hab' : paraText p = a ++ r.text ++ b := hab
  rw [hab', hxy]
  simp

theorem occurs_cellText_of_para {key : Str} {c : Cell} {p : Para} (hp : p ∈ c)
    (h : Occurs key (paraText p)) : Occurs key (cellText c) := by
  obtain ⟨a, b, hab⟩ := joinNl_decomp (List.mem_map.mpr ⟨p, hp, rfl⟩)
  obtain ⟨x, y, hxy⟩ := h
  refine ⟨a ++ x, y ++ b, ?_⟩
  have hab' : cellText c = a ++ paraText p ++ b := hab
  rw [hab', hxy]
  simp

theorem occurs_rowText_of_cell {key : Str} {r : Row} {c : Cell} (hc : c ∈ r)
    (h : Occurs key (cellText c)) : Occurs key (rowText r) := by
  obtain ⟨a, b, hab⟩ := flat_decomp (List.mem_map.mpr ⟨c, hc, rfl⟩)
  obtain ⟨x, y, hxy⟩ := h
  refine ⟨a ++ x, y ++ b, ?_⟩
  have hab' : rowText r = a ++ cellText c ++ b := hab
  rw [hab', hxy]
  simp

/-- `replace_text_in_paragraph` preserves segmentation and removes the key:
runs where the key occurs are rewritten exactly, runs where it does not are
unchanged and already key-free. -/
theorem paraSeg_rtp {key val : Str} (hk : key ∈ TOKENS) (hval : BraceFree val)
    {A : Str → Prop} {p : Para} (h : ParaSeg A p) :
    ParaSeg (fun t => A t ∧ t ≠ key) (replace_text_in_paragraph p key val) := by
  intro r hr
  simp only [replace_text_in_paragraph, List.mem_map] at hr
  obtain ⟨r0, hr0, rfl⟩ := hr
  by_cases hg : hasSub key r0.text = true
  · simp only [hg, if_true]
    exact seg_replace hk hval (h r0 hr0)
  · simp only [hg, Bool.false_eq_true, if_false]
    have hno : ¬ Occurs key r0.text := fun hocc => hg (hasSub_iff.mpr hocc)
    exact seg_restrict_of_not_occurs hk (h r0 hr0) hno

/-! ### A decidable segmentation checker -/

def segCheckGo : Nat → Str → Bool
  | _, [] => true
  | 0, _ :: _ => false
  | fuel + 1, c :: rest =>
    if c = '}' then false
    else if c = '{' then
      match TOKENS.find? (fun t => hasPref t (c :: rest)) with
      | none => false
      | some t => segCheckGo fuel ((c :: rest).drop t.length)
    else segCheckGo fuel rest

def segCheck (s : Str) : Bool := segCheckGo s.length s

theorem tokens_ne_nil : ∀ t ∈ TOKENS, t ≠ [] := fun t ht =>
  tokShape_ne_nil (tokens_shape t ht)

def TOK : Str → Prop := fun t => t ∈ TOKENS

theorem seg_tok {t : Str} (h : t ∈ TOKENS) : Seg TOK t :=
  ⟨[Piece.tok t], by simpa [PieceOK], by simpa [TOK], by simp [renderPs, Piece.render]⟩

theorem segCheckGo_sound :
    ∀ (fuel : Nat) (s : Str), s.length ≤ fuel → segCheckGo fuel s = true → Seg TOK s := by
  intro fuel
  induction fuel with
  | zero =>
    intro s hs _
    have : s = [] := List.eq_nil_of_length_eq_zero (Nat.le_zero.mp hs)
    subst this
    exact seg_nil
  | succ f ih =>
    intro s hs hok
    cases s with
    | nil => exact seg_nil
    | cons c rest =>
      simp only [segCheckGo] at hok
      by_cases hc1 : c = '}'
      · simp [hc1] at hok
      · by_cases hc2 : c = '{'
        · subst hc2
          rw [if_neg hc1, if_pos rfl] at hok
          cases hfind : TOKENS.find? (fun t => hasPref t ('{' :: rest)) with
          | none => rw [hfind] at hok; simp at hok
          | some t =>
            rw [hfind] at hok
            have htTok : t ∈ TOKENS := List.mem_of_find?_eq_some hfind
            have hpref : hasPref t ('{' :: rest) = true :=
              List.find?_some (p := fun u => hasPref u ('{' :: rest)) hfind
            obtain ⟨y, hy⟩ := hasPref_iff.mp hpref
            have hdrop : ('{' :: rest).drop t.length = y := by
              rw [hy, List.drop_left]
            change segCheckGo f (('{' :: rest).drop t.length) = true at hok
            rw [hdrop] at hok
            have htpos : 1 ≤ t.length := by
              cases t with
              | nil => exact absurd rfl (tokens_ne_nil [] htTok)
              | cons _ _ => simp
            have hylen : y.length ≤ f := by
              have hlens := congrArg List.length hy
              simp only [List.length_cons, List.length_append] at hlens
              simp only [List.length_cons] at hs
              omega
            have hsegy : Seg TOK y := ih y hylen hok
            rw [hy]
            exact seg_append (seg_tok htTok) hsegy
        · simp only [hc1, if_false, hc2, if_false] at hok
          have hsegr : Seg TOK rest := ih rest (by simpa using Nat.le_of_succ_le_succ hs) hok
          have : Seg TOK ([c] ++ rest) :=
            seg_append (seg_lit (by intro d hd; simp at hd; simp [hd, hc1, hc2])) hsegr
          simpa using this

theorem segCheck_sound {s : Str} (h : segCheck s = true) : Seg TOK s :=
  segCheckGo_sound s.length s (le_refl _) h

/-! ### Decidable well-formedness of documents and data -/

def runSegB (r : Run) : Bool := segCheck r.text
def paraSegB (p : Para) : Bool := p.runs.all runSegB
def cellSegB (c : Cell) : Bool := c.all paraSegB
def rowSegB (r : Row) : Bool := r.all cellSegB
def tableSegB (t : Table) : Bool := t.all rowSegB
def tablesSegB (ts : List Table) : Bool := ts.all tableSegB

theorem paraSegB_sound {p : Para} (h : paraSegB p = true) : ParaSeg TOK p := by
  intro r hr
  exact segCheck_sound (List.all_eq_true.mp h r hr)

theorem cellSegB_sound {c : Cell} (h : cellSegB c = true) : CellSeg TOK c := by
  intro p hp
  exact paraSegB_sound (List.all_eq_true.mp h p hp)

theorem rowSegB_sound {r : Row} (h : rowSegB r = true) : RowSeg TOK r := by
  intro c hc
  exact cellSegB_sound (List.all_eq_true.mp h c hc)

theorem tableSegB_sound {t : Table} (h : tableSegB t = true) : TableSeg TOK t := by
  intro r hr
  exact rowSegB_sound (List.all_eq_true.mp h r hr)

theorem tablesSegB_sound {ts : List Table} (h : tablesSegB ts = true) :
    TablesSeg TOK ts := by
  intro t ht
  exact tableSegB_sound (List.all_eq_true.mp h t ht)

def optBF : Option Str → Bool
  | none => true
  | some v => braceFree v

def eduBF (e : EduEntry) : Bool :=
  braceFree e.degree && braceFree e.institution && braceFree e.year && braceFree e.cgpa

def workBF (w : WorkEntry) : Bool :=
  braceFree w.company_name && braceFree w.duration && braceFree w.job_title &&
    w.job_description.all braceFree && w.achievements.all braceFree

/-- All strings of the data mapping are brace-free (no token-shaped values). -/
def dataBF (d : RData) : Bool :=
  optBF d.name && optBF d.contact_number && optBF d.email && optBF d.nationality &&
    optBF d.summary && d.skills.all braceFree && d.languages.all braceFree &&
    d.education.all eduBF && d.work_experience.all workBF

theorem displayValue_bf {o : Option Str} (h : optBF o = true) :
    BraceFree (displayValue o) := by
  cases o with
  | none => intro c hc; simp [displayValue] at hc
  | some v => exact braceFree_iff.mp h

/-! ### Monotonicity and restriction, lifted over the document tree -/

theorem paraSeg_mono {A B : Str → Prop} (hab : ∀ t, A t → B t) {p : Para}
    (h : ParaSeg A p) : ParaSeg B p := fun r hr => seg_mono hab (h r hr)

theorem cellSeg_mono {A B : Str → Prop} (hab : ∀ t, A t → B t) {c : Cell}
    (h : CellSeg A c) : CellSeg B c := fun p hp => paraSeg_mono hab (h p hp)

theorem rowSeg_mono {A B : Str → Prop} (hab : ∀ t, A t → B t) {r : Row}
    (h : RowSeg A r) : RowSeg B r := fun c hc => cellSeg_mono hab (h c hc)

theorem tableSeg_mono {A B : Str → Prop} (hab : ∀ t, A t → B t) {t : Table}
    (h : TableSeg A t) : TableSeg B t := fun r hr => rowSeg_mono hab (h r hr)

theorem paraSeg_restrict {key : Str} (hk : key ∈ TOKENS) {A : Str → Prop} {p : Para}
    (h : ParaSeg A p) (hno : ¬ Occurs key (paraText p)) :
    ParaSeg (fun u => A u ∧ u ≠ key) p := fun r hr =>
  seg_restrict_of_not_occurs hk (h r hr)
    (fun hocc => hno (occurs_paraText_of_run hr hocc))

theorem rowSeg_restrict {key : Str} (hk : key ∈ TOKENS) {A : Str → Prop} {r : Row}
    (h : RowSeg A r) (hno : ¬ Occurs key (rowText r)) :
    RowSeg (fun u => A u ∧ u ≠ key) r := by
  intro c hc p hp
  exact paraSeg_restrict hk (h c hc p hp)
    (fun hocc => hno (occurs_rowText_of_cell hc (occurs_cellText_of_para hp hocc)))

/-! ### Token membership facts -/

theorem kNAME_mem : kNAME ∈ TOKENS := by decide
theorem kCONTACT_mem : kCONTACT ∈ TOKENS := by decide
theorem kEMAIL_mem : kEMAIL ∈ TOKENS := by decide
theorem kNATIONALITY_mem : kNATIONALITY ∈ TOKENS := by decide
theorem kSUMMARY_mem : kSUMMARY ∈ TOKENS := by decide
theorem kDEGREE_mem : kDEGREE ∈ TOKENS := by decide
theorem kINSTITUTION_mem : kINSTITUTION ∈ TOKENS := by decide
theorem kEDUYEAR_mem : kEDUYEAR ∈ TOKENS := by decide
theorem kCGPA_mem : kCGPA ∈ TOKENS := by decide
theorem kSKILLS_mem : kSKILLS ∈ TOKENS := by decide
theorem kLANGUAGES_mem : kLANGUAGES ∈ TOKENS := by decide
theorem kCOMPANYNAME_mem : kCOMPANYNAME ∈ TOKENS := by decide
theorem kDURATION_mem : kDURATION ∈ TOKENS := by decide
theorem kJOBTITLE_mem : kJOBTITLE ∈ TOKENS := by decide
theorem kJOBDESCRIPTION_mem : kJOBDESCRIPTION ∈ TOKENS := by decide
theorem kACHIEVEMENTS_mem : kACHIEVEMENTS ∈ TOKENS := by decide

/-! ### Stage 1 transport -/

def scalar_keys : List Str := [kNAME, kCONTACT, kEMAIL, kNATIONALITY, kSUMMARY]

/-- One guarded scalar replacement of `scalarPass`. -/
def sstep (key val : Str) (p : Para) : Para :=
  if hasSub key (paraText p) then replace_text_in_paragraph p key val else p

theorem scalarPass_eq (data : RData) (p : Para) :
    scalarPass data p =
      sstep kSUMMARY (displayValue data.summary)
        (sstep kNATIONALITY (displayValue data.nationality)
          (sstep kEMAIL (displayValue data.email)
            (sstep kCONTACT (displayValue data.contact_number)
              (sstep kNAME (displayValue data.name) p)))) := by
  simp only [scalarPass, simple_replacements_data, List.foldl_cons, List.foldl_nil, sstep]

theorem sstep_seg {key val : Str} (hk : key ∈ TOKENS) (hval : BraceFree val)
    {A : Str → Prop} {p : Para} (h : ParaSeg A p) :
    ParaSeg (fun u => A u ∧ u ≠ key) (sstep key val p) := by
  unfold sstep
  by_cases hg : hasSub key (paraText p) = true
  · rw [if_pos hg]
    exact paraSeg_rtp hk hval h
  · rw [if_neg (by simpa using hg)]
    exact paraSeg_restrict hk h (fun hocc => hg (hasSub_iff.mpr hocc))

theorem scalarPass_seg {data : RData}
    (h1 : optBF data.name = true) (h2 : optBF data.contact_number = true)
    (h3 : optBF data.email = true) (h4 : optBF data.nationality = true)
    (h5 : optBF data.summary = true)
    {A : Str → Prop} {p : Para} (h : ParaSeg A p) :
    ParaSeg (fun u => A u ∧ u ∉ scalar_keys) (scalarPass data p) := by
  rw [scalarPass_eq]
  have s1 := sstep_seg kNAME_mem (displayValue_bf h1) h
  have s2 := sstep_seg kCONTACT_mem (displayValue_bf h2) s1
  have s3 := sstep_seg kEMAIL_mem (displayValue_bf h3) s2
  have s4 := sstep_seg kNATIONALITY_mem (displayValue_bf h4) s3
  have s5 := sstep_seg kSUMMARY_mem (displayValue_bf h5) s4
  refine paraSeg_mono ?_ s5
  intro u hu
  obtain ⟨⟨⟨⟨⟨hA, e1⟩, e2⟩, e3⟩, e4⟩, e5⟩ := hu
  refine ⟨hA, ?_⟩
  simp only [scalar_keys, List.mem_cons, List.not_mem_nil, or_false]
  push_neg
  exact ⟨e1, e2, e3, e4, e5⟩

/-! ### Bullet expansion transport -/

theorem braceFree_append {a b : Str} (ha : BraceFree a) (hb : BraceFree b) :
    BraceFree (a ++ b) := by
  intro c hc
  rcases List.mem_append.mp hc with h | h
  · exact ha c h
  · exact hb c h

theorem mem_flat {α : Type} {q : α} :
    ∀ {l : List (List α)}, q ∈ flat l → ∃ x ∈ l, q ∈ x := by
  intro l
  induction l with
  | nil => intro h; simp [flat] at h
  | cons y ys ih =>
    intro h
    rcases List.mem_append.mp h with h | h
    · exact ⟨y, by simp, h⟩
    · obtain ⟨x, hx, hq⟩ := ih h
      exact ⟨x, by simp [hx], hq⟩

/-- When bullet expansion keeps a paragraph, no new paragraph was appended. -/
theorem bulletOutcome_some_snd {p : Para} {key : Str} {items : List Str} {q : Para}
    (h : (bulletOutcome p key items).1 = some q) :
    (bulletOutcome p key items).2 = [] := by
  by_cases he : items.isEmpty = true
  · rw [bulletOutcome_empty he]
  · have he' : items.isEmpty = false := Bool.eq_false_iff.mpr he
    cases hf : p.runs.find? (fun r => hasSub key r.text) with
    | none => rw [bulletOutcome_noRun he' hf]
    | some tr =>
      rw [bulletOutcome_found he' hf] at h
      simp at h

/-- The kept paragraph of a bullet expansion is segmented without the key. -/
theorem bulletOutcome_kept_seg {key : Str} (hk : key ∈ TOKENS) {items : List Str}
    {A : Str → Prop} {p : Para} (h : ParaSeg A p) {q : Para}
    (hq : (bulletOutcome p key items).1 = some q) :
    ParaSeg (fun u => A u ∧ u ≠ key) q := by
  by_cases he : items.isEmpty = true
  · rw [bulletOutcome_empty he] at hq
    simp only [Option.some.injEq] at hq
    subst hq
    exact paraSeg_rtp hk (by intro c hc; simp at hc) h
  · have he' : items.isEmpty = false := Bool.eq_false_iff.mpr he
    cases hf : p.runs.find? (fun r => hasSub key r.text) with
    | none =>
      rw [bulletOutcome_noRun he' hf] at hq
      simp only [Option.some.injEq] at hq
      subst hq
      intro r hr
      have hnor := List.find?_eq_none.mp hf r hr
      exact seg_restrict_of_not_occurs hk (h r hr)
        (fun hocc => hnor (by simpa using hasSub_iff.mpr hocc))
    | some tr =>
      rw [bulletOutcome_found he' hf] at hq
      simp at hq

/-- Every paragraph appended by a bullet expansion consists of brace-free
literal runs, so it is segmented for any allowed set. -/
theorem bulletOutcome_appended_seg {key : Str} {items : List Str}
    (hbf : items.all braceFree = true) {p : Para} {q : Para}
    (hq : q ∈ (bulletOutcome p key items).2) (B : Str → Prop) : ParaSeg B q := by
  by_cases he : items.isEmpty = true
  · rw [bulletOutcome_empty he] at hq
    simp at hq
  · have he' : items.isEmpty = false := Bool.eq_false_iff.mpr he
    cases hf : p.runs.find? (fun r => hasSub key r.text) with
    | none => rw [bulletOutcome_noRun he' hf] at hq; simp at hq
    | some tr =>
      rw [bulletOutcome_found he' hf] at hq
      simp only [List.mem_append] at hq
      rcases hq with (hq | hq) | hq
      · by_cases hach : key = kACHIEVEMENTS
        · rw [if_pos hach] at hq
          simp only [List.mem_singleton] at hq
          subst hq
          intro r hr
          simp only [achHeaderPara, List.mem_singleton] at hr
          subst hr
          show Seg B "Achievements:".toList
          exact seg_lit (braceFree_iff.mp (by decide))
        · rw [if_neg hach] at hq
          simp at hq
      · obtain ⟨point, hpoint, rfl⟩ := List.mem_map.mp hq
        intro r hr
        simp only [bulletPara, List.mem_singleton] at hr
        subst hr
        show Seg B ("• ".toList ++ point)
        refine seg_lit (braceFree_append (braceFree_iff.mp (by decide)) ?_)
        exact braceFree_iff.mp (List.all_eq_true.mp hbf point hpoint)
      · by_cases hach : key = kACHIEVEMENTS
        · rw [if_pos hach] at hq
          simp only [List.mem_singleton] at hq
          subst hq
          intro r hr
          simp [freshPara] at hr
        · rw [if_neg hach] at hq
          simp at hq

/-- The keyed-list loop keeps only paragraphs that are segmented without any
of the keys, and appends only brace-free literal paragraphs. -/
theorem listKeysPass_seg :
    ∀ {pairs : List (Str × List Str)},
      (∀ kv ∈ pairs, kv.1 ∈ TOKENS ∧ kv.2.all braceFree = true) →
      ∀ {A : Str → Prop} {p : Para}, ParaSeg A p →
        (∀ q, (listKeysPass pairs p).1 = some q →
            ParaSeg (fun u => A u ∧ ∀ kv ∈ pairs, u ≠ kv.1) q) ∧
        (∀ q ∈ (listKeysPass pairs p).2,
            ParaSeg (fun u => A u ∧ ∀ kv ∈ pairs, u ≠ kv.1) q) := by
  intro pairs
  induction pairs with
  | nil =>
    intro _ A p h
    constructor
    · intro q hq
      simp only [listKeysPass, Option.some.injEq] at hq
      subst hq
      exact paraSeg_mono (fun u hu => ⟨hu, by simp⟩) h
    · intro q hq
      simp [listKeysPass] at hq
  | cons kv rest ih =>
    intro hkeys A p h
    have hkv := hkeys kv (by simp)
    have hrest : ∀ kv' ∈ rest, kv'.1 ∈ TOKENS ∧ kv'.2.all braceFree = true :=
      fun kv' h' => hkeys kv' (by simp [h'])
    have hmono : ∀ {q : Para},
        ParaSeg (fun u => (A u ∧ u ≠ kv.1) ∧ ∀ kv' ∈ rest, u ≠ kv'.1) q →
        ParaSeg (fun u => A u ∧ ∀ kv' ∈ kv :: rest, u ≠ kv'.1) q := by
      intro q hq
      refine paraSeg_mono ?_ hq
      rintro u ⟨⟨hA, hne⟩, hr⟩
      refine ⟨hA, ?_⟩
      intro kv' hkv'
      rcases List.mem_cons.mp hkv' with rfl | hmem
      · exact hne
      · exact hr kv' hmem
    by_cases hg : hasSub kv.1 (paraText p) = true
    · rcases hbo : bulletOutcome p kv.1 kv.2 with ⟨fst, snd⟩
      cases fst with
      | some q0 =>
        have hfst : (bulletOutcome p kv.1 kv.2).1 = some q0 := by rw [hbo]
        have hsnd : snd = [] := by
          have := bulletOutcome_some_snd hfst
          rw [hbo] at this
          exact this
        have hq0 : ParaSeg (fun u => A u ∧ u ≠ kv.1) q0 :=
          bulletOutcome_kept_seg hkv.1 h hfst
        have ihq := ih hrest hq0
        have heq : listKeysPass (kv :: rest) p =
            ((listKeysPass rest q0).1, snd ++ (listKeysPass rest q0).2) := by
          simp only [listKeysPass, hg, if_true, hbo]
        rw [heq]
        constructor
        · intro q hq
          exact hmono (ihq.1 q hq)
        · intro q hq
          rw [hsnd, List.nil_append] at hq
          exact hmono (ihq.2 q hq)
      | none =>
        have heq : listKeysPass (kv :: rest) p = (none, snd) := by
          simp only [listKeysPass, hg, if_true, hbo]
        rw [heq]
        constructor
        · intro q hq
          simp at hq
        · intro q hq
          have hq' : q ∈ (bulletOutcome p kv.1 kv.2).2 := by rw [hbo]; exact hq
          exact bulletOutcome_appended_seg hkv.2 hq' _
    · have hnokey : ¬ Occurs kv.1 (paraText p) := fun hocc => hg (hasSub_iff.mpr hocc)
      have hres : ParaSeg (fun u => A u ∧ u ≠ kv.1) p := paraSeg_restrict hkv.1 h hnokey
      have ihq := ih hrest hres
      have heq : listKeysPass (kv :: rest) p = listKeysPass rest p := by
        simp only [listKeysPass, hg, Bool.false_eq_true, if_false]
      rw [heq]
      exact ⟨fun q hq => hmono (ihq.1 q hq), fun q hq => hmono (ihq.2 q hq)⟩

/-! ### Matching rows, and restriction by a list of keys -/

theorem tableSeg_restrict {key : Str} (hk : key ∈ TOKENS) {A : Str → Prop}
    {t : Table} (h : TableSeg A t) (hno : ∀ r ∈ t, ¬ Occurs key (rowText r)) :
    TableSeg (fun u => A u ∧ u ≠ key) t := fun r hr =>
  rowSeg_restrict hk (h r hr) (hno r hr)

theorem tableSeg_restrict_list {keys : List Str} (hks : ∀ k ∈ keys, k ∈ TOKENS) :
    ∀ {A : Str → Prop} {t : Table}, TableSeg A t →
      (∀ k ∈ keys, ∀ r ∈ t, ¬ Occurs k (rowText r)) →
      TableSeg (fun u => A u ∧ u ∉ keys) t := by
  induction keys with
  | nil =>
    intro A t h _
    exact tableSeg_mono (fun u hu => ⟨hu, by simp⟩) h
  | cons k keys ih =>
    intro A t h hno
    have h1 : TableSeg (fun u => A u ∧ u ≠ k) t :=
      tableSeg_restrict (hks k (by simp)) h (hno k (by simp))
    have h2 := ih (fun k' hk' => hks k' (by simp [hk']))
      h1 (fun k' hk' => hno k' (by simp [hk']))
    refine tableSeg_mono ?_ h2
    rintro u ⟨⟨hA, hne⟩, hmem⟩
    refine ⟨hA, ?_⟩
    intro hin
    rcases List.mem_cons.mp hin with rfl | hin'
    · exact hne rfl
    · exact hmem hin'

theorem tableSeg_no_occurs {key : Str} (hk : key ∈ TOKENS) {A : Str → Prop}
    {t : Table} (h : TableSeg A t) (hex : ¬ A key) :
    ∀ r ∈ t, ¬ Occurs key (rowText r) := fun r hr =>
  not_occurs_of_seg hk (seg_rowText (h r hr)) hex

/-- A row that the education detection does not match has no education-token
occurrence in its text. -/
theorem eduRowMatch_false_iff {r : Row} :
    eduRowMatch r = false ↔ ∀ k ∈ education_placeholders, ¬ Occurs k (rowText r) := by
  simp only [eduRowMatch, List.any_eq_false]
  constructor
  · intro h k hk hocc
    exact h k hk (hasSub_iff.mpr hocc)
  · intro h k hk hsub
    exact h k hk (hasSub_iff.mp hsub)

theorem workRowMatch_false_iff {r : Row} :
    workRowMatch r = false ↔ ∀ k ∈ work_exp_placeholders, ¬ Occurs k (rowText r) := by
  simp only [workRowMatch, List.any_eq_false]
  constructor
  · intro h k hk hocc
    exact h k hk (hasSub_iff.mpr hocc)
  · intro h k hk hsub
    exact h k hk (hasSub_iff.mp hsub)

theorem edu_keys_tokens : ∀ k ∈ education_placeholders, k ∈ TOKENS := by decide

theorem work_keys_tokens : ∀ k ∈ work_exp_placeholders, k ∈ TOKENS := by decide

/-- A table with no matching row, restricted. -/
theorem tableSeg_restrict_noEduMatch {A : Str → Prop} {t : Table}
    (h : TableSeg A t) (hm : ∀ r ∈ t, eduRowMatch r = false) :
    TableSeg (fun u => A u ∧ u ∉ education_placeholders) t := by
  refine tableSeg_restrict_list edu_keys_tokens h ?_
  intro k hk r hr
  exact (eduRowMatch_false_iff.mp (hm r hr)) k hk

theorem tableSeg_restrict_noWorkMatch {A : Str → Prop} {t : Table}
    (h : TableSeg A t) (hm : ∀ r ∈ t, workRowMatch r = false) :
    TableSeg (fun u => A u ∧ u ∉ work_exp_placeholders) t := by
  refine tableSeg_restrict_list work_keys_tokens h ?_
  intro k hk r hr
  exact (workRowMatch_false_iff.mp (hm r hr)) k hk

/-- From exclusion of all education keys to an unmatched table. -/
theorem noEduMatch_of_seg {A : Str → Prop} {t : Table} (h : TableSeg A t)
    (hex : ∀ k ∈ education_placeholders, ¬ A k) :
    ∀ r ∈ t, eduRowMatch r = false := by
  intro r hr
  refine eduRowMatch_false_iff.mpr ?_ 
  intro k hk
  exact not_occurs_of_seg (edu_keys_tokens k hk) (seg_rowText (h r hr)) (hex k hk)

theorem noWorkMatch_of_seg {A : Str → Prop} {t : Table} (h : TableSeg A t)
    (hex : ∀ k ∈ work_exp_placeholders, ¬ A k) :
    ∀ r ∈ t, workRowMatch r = false := by
  intro r hr
  refine workRowMatch_false_iff.mpr ?_ 
  intro k hk
  exact not_occurs_of_seg (work_keys_tokens k hk) (seg_rowText (h r hr)) (hex k hk)

/-! ### Education expansion transport -/

theorem substEduPara_seg {e : EduEntry} (hbf : eduBF e = true) {A : Str → Prop}
    {p : Para} (h : ParaSeg A p) :
    ParaSeg (fun u => A u ∧ u ∉ education_placeholders) (substEduPara e p) := by
  have h1 : BraceFree e.degree ∧ BraceFree e.institution ∧ BraceFree e.year ∧
      BraceFree e.cgpa := by
    simp only [eduBF, Bool.and_eq_true] at hbf
    exact ⟨braceFree_iff.mp hbf.1.1.1, braceFree_iff.mp hbf.1.1.2,
      braceFree_iff.mp hbf.1.2, braceFree_iff.mp hbf.2⟩
  have s1 := paraSeg_rtp kDEGREE_mem h1.1 h
  have s2 := paraSeg_rtp kINSTITUTION_mem h1.2.1 s1
  have s3 := paraSeg_rtp kEDUYEAR_mem h1.2.2.1 s2
  have s4 := paraSeg_rtp kCGPA_mem h1.2.2.2 s3
  refine paraSeg_mono ?_ s4
  rintro u ⟨⟨⟨⟨hA, e1⟩, e2⟩, e3⟩, e4⟩
  refine ⟨hA, ?_⟩
  simp only [education_placeholders, List.mem_cons, List.not_mem_nil, or_false]
  push_neg
  exact ⟨e1, e2, e3, e4⟩

theorem substEduRow_seg {e : EduEntry} (hbf : eduBF e = true) {A : Str → Prop}
    {r : Row} (h : RowSeg A r) :
    RowSeg (fun u => A u ∧ u ∉ education_placeholders) (substEduRow e r) := by
  intro c hc p hp
  simp only [substEduRow, List.mem_map] at hc
  obtain ⟨c0, hc0, rfl⟩ := hc
  obtain ⟨p0, hp0, rfl⟩ := List.mem_map.mp hp
  exact substEduPara_seg hbf (h c0 hc0 p0 hp0)

theorem rowSeg_restrict_list {keys : List Str} (hks : ∀ k ∈ keys, k ∈ TOKENS) :
    ∀ {A : Str → Prop} {r : Row}, RowSeg A r →
      (∀ k ∈ keys, ¬ Occurs k (rowText r)) →
      RowSeg (fun u => A u ∧ u ∉ keys) r := by
  induction keys with
  | nil =>
    intro A r h _
    exact rowSeg_mono (fun u hu => ⟨hu, by simp⟩) h
  | cons k keys ih =>
    intro A r h hno
    have h1 : RowSeg (fun u => A u ∧ u ≠ k) r :=
      rowSeg_restrict (hks k (by simp)) h (hno k (by simp))
    have h2 := ih (fun k' hk' => hks k' (by simp [hk'])) h1
      (fun k' hk' => hno k' (by simp [hk']))
    refine rowSeg_mono ?_ h2
    rintro u ⟨⟨hA, hne⟩, hmem⟩
    refine ⟨hA, ?_⟩
    intro hin
    rcases List.mem_cons.mp hin with rfl | hin'
    · exact hne rfl
    · exact hmem hin'

/-- After education expansion of a table, every row is segmented without the
education tokens: clones are fully substituted and kept rows never matched. -/
theorem expandEduTable_seg {education : List EduEntry}
    (hbf : education.all eduBF = true) {A : Str → Prop} {t : Table}
    (h : TableSeg A t) :
    TableSeg (fun u => A u ∧ u ∉ education_placeholders)
      (expandEduTable t education) := by
  rw [expandEduTable_eq]
  intro r hr
  rcases List.mem_append.mp hr with hkeep | hnew
  · have hrt : r ∈ t := List.mem_of_mem_filter hkeep
    have hnm : eduRowMatch r = false := by
      have := List.of_mem_filter hkeep
      simpa using this
    exact rowSeg_restrict_list edu_keys_tokens (h r hrt)
      (eduRowMatch_false_iff.mp hnm)
  · obtain ⟨x, hx, hrx⟩ := mem_flat hnew
    obtain ⟨e, he, rfl⟩ := List.mem_map.mp hx
    obtain ⟨r0, hr0, rfl⟩ := List.mem_map.mp hrx
    have hr0t : r0 ∈ t := List.mem_of_mem_filter hr0
    exact substEduRow_seg (List.all_eq_true.mp hbf e he) (h r0 hr0t)

/-! ### Skills/languages and work-experience transport -/

theorem skills_pairs_ok {data : RData} (hs : data.skills.all braceFree = true)
    (hl : data.languages.all braceFree = true) :
    ∀ kv ∈ list_replacements data, kv.1 ∈ TOKENS ∧ kv.2.all braceFree = true := by
  intro kv hkv
  simp only [list_replacements, List.mem_cons, List.not_mem_nil, or_false] at hkv
  rcases hkv with rfl | rfl
  · exact ⟨kSKILLS_mem, hs⟩
  · exact ⟨kLANGUAGES_mem, hl⟩

theorem stage3Cell_seg {data : RData} (hs : data.skills.all braceFree = true)
    (hl : data.languages.all braceFree = true) {A : Str → Prop} {c : Cell}
    (h : CellSeg A c) :
    CellSeg (fun u => A u ∧ u ≠ kSKILLS ∧ u ≠ kLANGUAGES) (stage3Cell data c) := by
  have hmono : ∀ {q : Para},
      ParaSeg (fun u => A u ∧ ∀ kv ∈ list_replacements data, u ≠ kv.1) q →
      ParaSeg (fun u => A u ∧ u ≠ kSKILLS ∧ u ≠ kLANGUAGES) q := by
    intro q hq
    refine paraSeg_mono ?_ hq
    rintro u ⟨hA, hkv⟩
    exact ⟨hA, hkv (kSKILLS, data.skills) (by simp [list_replacements]),
      hkv (kLANGUAGES, data.languages) (by simp [list_replacements])⟩
  intro q hq
  rcases List.mem_append.mp hq with hkept | happ
  · obtain ⟨res, hres, hq'⟩ := List.mem_filterMap.mp hkept
    obtain ⟨p0, hp0, rfl⟩ := List.mem_map.mp hres
    exact hmono ((listKeysPass_seg (skills_pairs_ok hs hl) (h p0 hp0)).1 q hq')
  · obtain ⟨x, hx, hqx⟩ := mem_flat happ
    obtain ⟨res, hres, rfl⟩ := List.mem_map.mp hx
    obtain ⟨p0, hp0, rfl⟩ := List.mem_map.mp hres
    exact hmono ((listKeysPass_seg (skills_pairs_ok hs hl) (h p0 hp0)).2 q hqx)

theorem work_pairs_ok {e : WorkEntry} (hbf : workBF e = true) :
    ∀ kv ∈ [(kJOBDESCRIPTION, e.job_description), (kACHIEVEMENTS, e.achievements)],
      kv.1 ∈ TOKENS ∧ kv.2.all braceFree = true := by
  simp only [workBF, Bool.and_eq_true] at hbf
  intro kv hkv
  simp only [List.mem_cons, List.not_mem_nil, or_false] at hkv
  rcases hkv with rfl | rfl
  · exact ⟨kJOBDESCRIPTION_mem, hbf.1.2⟩
  · exact ⟨kACHIEVEMENTS_mem, hbf.2⟩

theorem workParaPass_seg {e : WorkEntry} (hbf : workBF e = true) {A : Str → Prop}
    {p : Para} (h : ParaSeg A p) :
    (∀ q, (workParaPass e p).1 = some q →
        ParaSeg (fun u => A u ∧ u ∉ work_exp_placeholders) q) ∧
    (∀ q ∈ (workParaPass e p).2,
        ParaSeg (fun u => A u ∧ u ∉ work_exp_placeholders) q) := by
  have hb : BraceFree e.company_name ∧ BraceFree e.duration ∧ BraceFree e.job_title := by
    simp only [workBF, Bool.and_eq_true] at hbf
    exact ⟨braceFree_iff.mp hbf.1.1.1.1, braceFree_iff.mp hbf.1.1.1.2,
      braceFree_iff.mp hbf.1.1.2⟩
  have s1 := paraSeg_rtp kCOMPANYNAME_mem hb.1 h
  have s2 := paraSeg_rtp kDURATION_mem hb.2.1 s1
  have s3 := paraSeg_rtp kJOBTITLE_mem hb.2.2 s2
  have hlkp := listKeysPass_seg (work_pairs_ok hbf) s3
  have hmono : ∀ {q : Para},
      ParaSeg (fun u => (((A u ∧ u ≠ kCOMPANYNAME) ∧ u ≠ kDURATION) ∧ u ≠ kJOBTITLE) ∧
        ∀ kv ∈ [(kJOBDESCRIPTION, e.job_description), (kACHIEVEMENTS, e.achievements)],
          u ≠ kv.1) q →
      ParaSeg (fun u => A u ∧ u ∉ work_exp_placeholders) q := by
    intro q hq
    refine paraSeg_mono ?_ hq
    rintro u ⟨⟨⟨⟨hA, e1⟩, e2⟩, e3⟩, hkv⟩
    refine ⟨hA, ?_⟩
    simp only [work_exp_placeholders, List.mem_cons, List.not_mem_nil, or_false]
    push_neg
    exact ⟨e1, e2, e3, hkv (kJOBDESCRIPTION, e.job_description) (by simp),
      hkv (kACHIEVEMENTS, e.achievements) (by simp)⟩
  exact ⟨fun q hq => hmono (hlkp.1 q hq), fun q hq => hmono (hlkp.2 q hq)⟩

theorem substWorkRow_seg {e : WorkEntry} (hbf : workBF e = true) {A : Str → Prop}
    {r : Row} (h : RowSeg A r) :
    RowSeg (fun u => A u ∧ u ∉ work_exp_placeholders) (substWorkRow e r) := by
  intro c hc p hp
  simp only [substWorkRow, List.mem_map] at hc
  obtain ⟨c0, hc0, rfl⟩ := hc
  rcases List.mem_append.mp hp with hkept | happ
  · obtain ⟨res, hres, hq'⟩ := List.mem_filterMap.mp hkept
    obtain ⟨p0, hp0, rfl⟩ := List.mem_map.mp hres
    exact (workParaPass_seg hbf (h c0 hc0 p0 hp0)).1 p hq'
  · obtain ⟨x, hx, hqx⟩ := mem_flat happ
    obtain ⟨res, hres, rfl⟩ := List.mem_map.mp hx
    obtain ⟨p0, hp0, rfl⟩ := List.mem_map.mp hres
    exact (workParaPass_seg hbf (h c0 hc0 p0 hp0)).2 p hqx

theorem expandWorkTable_seg {work : List WorkEntry}
    (hbf : work.all workBF = true) {A : Str → Prop} {t : Table}
    (h : TableSeg A t) :
    TableSeg (fun u => A u ∧ u ∉ work_exp_placeholders)
      (expandWorkTable t work) := by
  rw [expandWorkTable_eq]
  intro r hr
  rcases List.mem_append.mp hr with hkeep | hnew
  · have hrt : r ∈ t := List.mem_of_mem_filter hkeep
    have hnm : workRowMatch r = false := by
      have := List.of_mem_filter hkeep
      simpa using this
    exact rowSeg_restrict_list work_keys_tokens (h r hrt)
      (workRowMatch_false_iff.mp hnm)
  · obtain ⟨x, hx, hrx⟩ := mem_flat hnew
    obtain ⟨e, he, rfl⟩ := List.mem_map.mp hx
    obtain ⟨r0, hr0, rfl⟩ := List.mem_map.mp hrx
    have hr0t : r0 ∈ t := List.mem_of_mem_filter hr0
    exact substWorkRow_seg (List.all_eq_true.mp hbf e he) (h r0 hr0t)

/-! ### Whole-stage transport and split of the per-table loops -/

theorem stage1_table_seg {data : RData}
    (h1 : optBF data.name = true) (h2 : optBF data.contact_number = true)
    (h3 : optBF data.email = true) (h4 : optBF data.nationality = true)
    (h5 : optBF data.summary = true) {A : Str → Prop} {t : Table}
    (h : TableSeg A t) :
    TableSeg (fun u => A u ∧ u ∉ scalar_keys)
      (t.map fun r => r.map fun c => c.map (scalarPass data)) := by
  intro r hr
  obtain ⟨r0, hr0, rfl⟩ := List.mem_map.mp hr
  intro c hc
  obtain ⟨c0, hc0, rfl⟩ := List.mem_map.mp hc
  intro p hp
  obtain ⟨p0, hp0, rfl⟩ := List.mem_map.mp hp
  exact scalarPass_seg h1 h2 h3 h4 h5 (h r0 hr0 c0 hc0 p0 hp0)

theorem stage1_seg {data : RData}
    (h1 : optBF data.name = true) (h2 : optBF data.contact_number = true)
    (h3 : optBF data.email = true) (h4 : optBF data.nationality = true)
    (h5 : optBF data.summary = true) {A : Str → Prop} {ts : List Table}
    (h : TablesSeg A ts) :
    TablesSeg (fun u => A u ∧ u ∉ scalar_keys) (stage1 data ts) := by
  intro t ht
  obtain ⟨t0, ht0, rfl⟩ := List.mem_map.mp ht
  exact stage1_table_seg h1 h2 h3 h4 h5 (h t0 ht0)

theorem stage3_table_seg {data : RData} (hs : data.skills.all braceFree = true)
    (hl : data.languages.all braceFree = true) {A : Str → Prop} {t : Table}
    (h : TableSeg A t) :
    TableSeg (fun u => A u ∧ u ≠ kSKILLS ∧ u ≠ kLANGUAGES)
      (t.map fun r => r.map (stage3Cell data)) := by
  intro r hr
  obtain ⟨r0, hr0, rfl⟩ := List.mem_map.mp hr
  intro c hc
  obtain ⟨c0, hc0, rfl⟩ := List.mem_map.mp hc
  exact stage3Cell_seg hs hl (h r0 hr0 c0 hc0)

theorem stage3_seg {data : RData} (hs : data.skills.all braceFree = true)
    (hl : data.languages.all braceFree = true) {A : Str → Prop} {ts : List Table}
    (h : TablesSeg A ts) :
    TablesSeg (fun u => A u ∧ u ≠ kSKILLS ∧ u ≠ kLANGUAGES) (stage3 data ts) := by
  intro t ht
  obtain ⟨t0, ht0, rfl⟩ := List.mem_map.mp ht
  exact stage3_table_seg hs hl (h t0 ht0)

/-- Either no table matches, or the list splits at the first matching table. -/
theorem exists_first_split {α : Type} (P : α → Bool) :
    ∀ l : List α, (∀ x ∈ l, P x = true) ∨
      ∃ pre x post, l = pre ++ x :: post ∧ (∀ y ∈ pre, P y = true) ∧ P x = false := by
  intro l
  induction l with
  | nil => exact Or.inl (by simp)
  | cons a l ih =>
    by_cases ha : P a = true
    · rcases ih with h | ⟨pre, x, post, rfl, hpre, hx⟩
      · refine Or.inl ?_
        intro y hy
        rcases List.mem_cons.mp hy with rfl | hy'
        · exact ha
        · exact h y hy'
      · refine Or.inr ⟨a :: pre, x, post, by simp, ?_, hx⟩
        intro y hy
        rcases List.mem_cons.mp hy with rfl | hy'
        · exact ha
        · exact hpre y hy'
    · exact Or.inr ⟨[], a, l, by simp, by simp, Bool.eq_false_iff.mpr ha⟩

theorem stage2_all_noMatch {education : List EduEntry} :
    ∀ {ts : List Table}, (∀ t ∈ ts, (t.filter eduRowMatch).isEmpty = true) →
      stage2 education ts = ts := by
  intro ts
  induction ts with
  | nil => intro _; rfl
  | cons t ts ih =>
    intro h
    simp only [stage2, h t (by simp), if_true]
    rw [ih (fun t' ht' => h t' (by simp [ht']))]

theorem stage2_split {education : List EduEntry} :
    ∀ (pre : List Table) (t : Table) (post : List Table),
      (∀ t' ∈ pre, (t'.filter eduRowMatch).isEmpty = true) →
      (t.filter eduRowMatch).isEmpty = false →
      stage2 education (pre ++ t :: post) =
        pre ++ expandEduTable t education :: post := by
  intro pre
  induction pre with
  | nil =>
    intro t post _ ht
    simp only [List.nil_append, stage2, ht, Bool.false_eq_true, if_false]
  | cons a pre ih =>
    intro t post hpre ht
    simp only [List.cons_append, stage2, hpre a (by simp), if_true]
    show a :: stage2 education (pre ++ t :: post) = a :: (pre ++ expandEduTable t education :: post)
    rw [ih t post (fun t' ht' => hpre t' (by simp [ht'])) ht]

theorem stage4_all_noMatch {work : List WorkEntry} :
    ∀ {ts : List Table}, (∀ t ∈ ts, (t.filter workRowMatch).isEmpty = true) →
      stage4 work ts = ts := by
  intro ts
  induction ts with
  | nil => intro _; rfl
  | cons t ts ih =>
    intro h
    simp only [stage4, h t (by simp), if_true]
    rw [ih (fun t' ht' => h t' (by simp [ht']))]

theorem stage4_split {work : List WorkEntry} :
    ∀ (pre : List Table) (t : Table) (post : List Table),
      (∀ t' ∈ pre, (t'.filter workRowMatch).isEmpty = true) →
      (t.filter workRowMatch).isEmpty = false →
      stage4 work (pre ++ t :: post) =
        pre ++ expandWorkTable t work :: post := by
  intro pre
  induction pre with
  | nil =>
    intro t post _ ht
    simp only [List.nil_append, stage4, ht, Bool.false_eq_true, if_false]
  | cons a pre ih =>
    intro t post hpre ht
    simp only [List.cons_append, stage4, hpre a (by simp), if_true]
    show a :: stage4 work (pre ++ t :: post) = a :: (pre ++ expandWorkTable t work :: post)
    rw [ih t post (fun t' ht' => hpre t' (by simp [ht'])) ht]

/-- Tables that do not match are exactly those whose rows all fail the match. -/
theorem filter_isEmpty_iff {t : Table} {P : Row → Bool} :
    (t.filter P).isEmpty = true ↔ ∀ r ∈ t, P r = false := by
  rw [List.isEmpty_iff, List.filter_eq_nil_iff]
  constructor
  · intro h r hr
    exact Bool.eq_false_iff.mpr (h r hr)
  · intro h r hr
    simp [h r hr]

/-! ### Preservation of unmatched tables, and counting matching tables -/

theorem stage1_table_noEdu {data : RData}
    (h1 : optBF data.name = true) (h2 : optBF data.contact_number = true)
    (h3 : optBF data.email = true) (h4 : optBF data.nationality = true)
    (h5 : optBF data.summary = true) {A : Str → Prop} {t : Table}
    (hseg : TableSeg A t) (hnm : ∀ r ∈ t, eduRowMatch r = false) :
    ∀ r ∈ (t.map fun r => r.map fun c => c.map (scalarPass data)),
      eduRowMatch r = false := by
  have hres := stage1_table_seg h1 h2 h3 h4 h5
    (tableSeg_restrict_noEduMatch hseg hnm)
  exact noEduMatch_of_seg hres (fun k hk => fun hcon => hcon.1.2 hk)

theorem stage1_table_noWork {data : RData}
    (h1 : optBF data.name = true) (h2 : optBF data.contact_number = true)
    (h3 : optBF data.email = true) (h4 : optBF data.nationality = true)
    (h5 : optBF data.summary = true) {A : Str → Prop} {t : Table}
    (hseg : TableSeg A t) (hnm : ∀ r ∈ t, workRowMatch r = false) :
    ∀ r ∈ (t.map fun r => r.map fun c => c.map (scalarPass data)),
      workRowMatch r = false := by
  have hres := stage1_table_seg h1 h2 h3 h4 h5
    (tableSeg_restrict_noWorkMatch hseg hnm)
  exact noWorkMatch_of_seg hres (fun k hk => fun hcon => hcon.1.2 hk)

theorem expandEduTable_noWork {education : List EduEntry}
    (hbf : education.all eduBF = true) {A : Str → Prop} {t : Table}
    (hseg : TableSeg A t) (hnm : ∀ r ∈ t, workRowMatch r = false) :
    ∀ r ∈ expandEduTable t education, workRowMatch r = false := by
  have hres := expandEduTable_seg hbf (tableSeg_restrict_noWorkMatch hseg hnm)
  exact noWorkMatch_of_seg hres (fun k hk => fun hcon => hcon.1.2 hk)

theorem stage3_table_noWork {data : RData} (hs : data.skills.all braceFree = true)
    (hl : data.languages.all braceFree = true) {A : Str → Prop} {t : Table}
    (hseg : TableSeg A t) (hnm : ∀ r ∈ t, workRowMatch r = false) :
    ∀ r ∈ (t.map fun r => r.map (stage3Cell data)), workRowMatch r = false := by
  have hres := stage3_table_seg hs hl (tableSeg_restrict_noWorkMatch hseg hnm)
  exact noWorkMatch_of_seg hres (fun k hk => fun hcon => hcon.1.2 hk)

theorem count_map_le {α β : Type} (f : α → β) (P : α → Bool) (Q : β → Bool) :
    ∀ (l : List α), (∀ x ∈ l, Q (f x) = true → P x = true) →
      ((l.map f).filter Q).length ≤ (l.filter P).length := by
  intro l
  induction l with
  | nil => intro _; simp
  | cons a l ih =>
    intro h
    simp only [List.map_cons, List.filter_cons]
    by_cases hq : Q (f a) = true
    · have hp : P a = true := h a (by simp) hq
      simp only [hq, if_true, hp, List.length_cons]
      exact Nat.succ_le_succ (ih (fun x hx => h x (by simp [hx])))
    · have hq' : Q (f a) = false := Bool.eq_false_iff.mpr hq
      simp only [hq', Bool.false_eq_true, if_false]
      by_cases hp : P a = true
      · simp only [hp, if_true, List.length_cons]
        exact Nat.le_succ_of_le (ih (fun x hx => h x (by simp [hx])))
      · simp only [Bool.eq_false_iff.mpr hp, Bool.false_eq_true, if_false]
        exact ih (fun x hx => h x (by simp [hx]))

theorem count_append_cons_le {α : Type} (P : α → Bool) (pre post : List α)
    {x y : α} (h : P y = true → P x = true) :
    ((pre ++ y :: post).filter P).length ≤ ((pre ++ x :: post).filter P).length := by
  simp only [List.filter_append, List.filter_cons, List.length_append]
  by_cases hy : P y = true
  · simp only [hy, if_true, h hy, List.length_cons]
    omega
  · simp only [Bool.eq_false_iff.mpr hy, Bool.false_eq_true, if_false]
    by_cases hx : P x = true
    · simp only [hx, if_true, List.length_cons]
      omega
    · simp only [Bool.eq_false_iff.mpr hx, Bool.false_eq_true, if_false]
      omega

theorem count_zero_all_noMatch {α : Type} {P : α → Bool} {l : List α}
    (h : (l.filter P).length = 0) : ∀ x ∈ l, P x = false := by
  intro x hx
  have : l.filter P = [] := List.eq_nil_of_length_eq_zero h
  have := List.filter_eq_nil_iff.mp this x hx
  exact Bool.eq_false_iff.mpr this

/-- The education stage walk: under the single-matching-table hypothesis,
every table of the output is segmented without the education tokens. -/
theorem stage2_seg_count {education : List EduEntry}
    (hbf : education.all eduBF = true) {A : Str → Prop} {ts : List Table}
    (hseg : TablesSeg A ts)
    (hcount : (ts.filter (fun t => !(t.filter eduRowMatch).isEmpty)).length ≤ 1) :
    TablesSeg (fun u => A u ∧ u ∉ education_placeholders) (stage2 education ts) := by
  rcases exists_first_split (fun t => (t.filter eduRowMatch).isEmpty) ts with
    hall | ⟨pre, t, post, rfl, hpre, ht⟩
  · rw [stage2_all_noMatch hall]
    intro t' ht'
    exact tableSeg_restrict_noEduMatch (hseg t' ht')
      (filter_isEmpty_iff.mp (hall t' ht'))
  · rw [stage2_split pre t post hpre ht]
    have hpre0 : (pre.filter (fun t => !(t.filter eduRowMatch).isEmpty)).length = 0 := by
      have : pre.filter (fun t => !(t.filter eduRowMatch).isEmpty) = [] := by
        rw [List.filter_eq_nil_iff]
        intro a ha
        simp [hpre a ha]
      rw [this]
      rfl
    have hpost0 : (post.filter (fun t => !(t.filter eduRowMatch).isEmpty)).length = 0 := by
      rw [List.filter_append, List.filter_cons] at hcount
      simp only [ht, Bool.not_false, if_true, List.length_append, List.length_cons,
        hpre0] at hcount
      omega
    have hpost : ∀ t' ∈ post, (t'.filter eduRowMatch).isEmpty = true := by
      intro t' ht'
      have := count_zero_all_noMatch hpost0 t' ht'
      simpa using this
    intro t' ht'
    rcases List.mem_append.mp ht' with hp | hc
    · exact tableSeg_restrict_noEduMatch (hseg t' (by simp [List.mem_append.mpr (Or.inl hp)]))
        (filter_isEmpty_iff.mp (hpre t' hp))
    · rcases List.mem_cons.mp hc with rfl | hpost'
      · exact expandEduTable_seg hbf (hseg t (by simp))
      · exact tableSeg_restrict_noEduMatch
          (hseg t' (by simp [List.mem_append.mpr (Or.inr (List.mem_cons.mpr (Or.inr hpost')))]))
          (filter_isEmpty_iff.mp (hpost t' hpost'))

/-- The work-experience stage walk, same shape as the education one. -/
theorem stage4_seg_count {work : List WorkEntry}
    (hbf : work.all workBF = true) {A : Str → Prop} {ts : List Table}
    (hseg : TablesSeg A ts)
    (hcount : (ts.filter (fun t => !(t.filter workRowMatch).isEmpty)).length ≤ 1) :
    TablesSeg (fun u => A u ∧ u ∉ work_exp_placeholders) (stage4 work ts) := by
  rcases exists_first_split (fun t => (t.filter workRowMatch).isEmpty) ts with
    hall | ⟨pre, t, post, rfl, hpre, ht⟩
  · rw [stage4_all_noMatch hall]
    intro t' ht'
    exact tableSeg_restrict_noWorkMatch (hseg t' ht')
      (filter_isEmpty_iff.mp (hall t' ht'))
  · rw [stage4_split pre t post hpre ht]
    have hpre0 : (pre.filter (fun t => !(t.filter workRowMatch).isEmpty)).length = 0 := by
      have : pre.filter (fun t => !(t.filter workRowMatch).isEmpty) = [] := by
        rw [List.filter_eq_nil_iff]
        intro a ha
        simp [hpre a ha]
      rw [this]
      rfl
    have hpost0 : (post.filter (fun t => !(t.filter workRowMatch).isEmpty)).length = 0 := by
      rw [List.filter_append, List.filter_cons] at hcount
      simp only [ht, Bool.not_false, if_true, List.length_append, List.length_cons,
        hpre0] at hcount
      omega
    have hpost : ∀ t' ∈ post, (t'.filter workRowMatch).isEmpty = true := by
      intro t' ht'
      have := count_zero_all_noMatch hpost0 t' ht'
      simpa using this
    intro t' ht'
    rcases List.mem_append.mp ht' with hp | hc
    · exact tableSeg_restrict_noWorkMatch (hseg t' (by simp [List.mem_append.mpr (Or.inl hp)]))
        (filter_isEmpty_iff.mp (hpre t' hp))
    · rcases List.mem_cons.mp hc with rfl | hpost'
      · exact expandWorkTable_seg hbf (hseg t (by simp))
      · exact tableSeg_restrict_noWorkMatch
          (hseg t' (by simp [List.mem_append.mpr (Or.inr (List.mem_cons.mpr (Or.inr hpost')))]))
          (filter_isEmpty_iff.mp (hpost t' hpost'))

/-- The education stage never increases the number of work-matching tables. -/
theorem stage2_work_count {education : List EduEntry}
    (hbf : education.all eduBF = true) {A : Str → Prop} {ts : List Table}
    (hseg : TablesSeg A ts) :
    ((stage2 education ts).filter (fun t => !(t.filter workRowMatch).isEmpty)).length ≤
      (ts.filter (fun t => !(t.filter workRowMatch).isEmpty)).length := by
  rcases exists_first_split (fun t => (t.filter eduRowMatch).isEmpty) ts with
    hall | ⟨pre, t, post, rfl, hpre, ht⟩
  · rw [stage2_all_noMatch hall]
  · rw [stage2_split pre t post hpre ht]
    refine count_append_cons_le _ pre post ?_
    intro hW
    by_contra hcon
    have hnm : ∀ r ∈ t, workRowMatch r = false := by
      refine filter_isEmpty_iff.mp ?_
      rcases Bool.eq_false_or_eq_true ((t.filter workRowMatch).isEmpty) with h | h
      · exact h
      · exfalso
        exact hcon (by simp [h])
    have := expandEduTable_noWork hbf (hseg t (by simp)) hnm
    have hemp : ((expandEduTable t education).filter workRowMatch).isEmpty = true :=
      filter_isEmpty_iff.mpr this
    rw [hemp] at hW
    simp at hW

theorem match_true_of_preserved {f : Table → Table} {t : Table} {M : Row → Bool}
    (hpres : (∀ r ∈ t, M r = false) → ∀ r ∈ f t, M r = false)
    (hQ : (!((f t).filter M).isEmpty) = true) : (!(t.filter M).isEmpty) = true := by
  by_contra hcon
  have hemp0 : (t.filter M).isEmpty = true := by
    rcases Bool.eq_false_or_eq_true ((t.filter M).isEmpty) with h | h
    · exact h
    · exact absurd (by simp [h]) hcon
  have hnm : ∀ r ∈ t, M r = false := filter_isEmpty_iff.mp hemp0
  have hemp : ((f t).filter M).isEmpty = true := filter_isEmpty_iff.mpr (hpres hnm)
  rw [hemp] at hQ
  simp at hQ

theorem stage1_edu_count {data : RData}
    (h1 : optBF data.name = true) (h2 : optBF data.contact_number = true)
    (h3 : optBF data.email = true) (h4 : optBF data.nationality = true)
    (h5 : optBF data.summary = true) {A : Str → Prop} {ts : List Table}
    (hseg : TablesSeg A ts) :
    ((stage1 data ts).filter (fun t => !(t.filter eduRowMatch).isEmpty)).length ≤
      (ts.filter (fun t => !(t.filter eduRowMatch).isEmpty)).length := by
  refine count_map_le _ _ _ ts ?_
  intro t0 ht0 hQ
  exact match_true_of_preserved (stage1_table_noEdu h1 h2 h3 h4 h5 (hseg t0 ht0)) hQ

theorem stage1_work_count {data : RData}
    (h1 : optBF data.name = true) (h2 : optBF data.contact_number = true)
    (h3 : optBF data.email = true) (h4 : optBF data.nationality = true)
    (h5 : optBF data.summary = true) {A : Str → Prop} {ts : List Table}
    (hseg : TablesSeg A ts) :
    ((stage1 data ts).filter (fun t => !(t.filter workRowMatch).isEmpty)).length ≤
      (ts.filter (fun t => !(t.filter workRowMatch).isEmpty)).length := by
  refine count_map_le _ _ _ ts ?_
  intro t0 ht0 hQ
  exact match_true_of_preserved (stage1_table_noWork h1 h2 h3 h4 h5 (hseg t0 ht0)) hQ

theorem stage3_work_count {data : RData} (hs : data.skills.all braceFree = true)
    (hl : data.languages.all braceFree = true) {A : Str → Prop} {ts : List Table}
    (hseg : TablesSeg A ts) :
    ((stage3 data ts).filter (fun t => !(t.filter workRowMatch).isEmpty)).length ≤
      (ts.filter (fun t => !(t.filter workRowMatch).isEmpty)).length := by
  refine count_map_le _ _ _ ts ?_
  intro t0 ht0 hQ
  exact match_true_of_preserved (stage3_table_noWork hs hl (hseg t0 ht0)) hQ

/-- The sixteen tokens that `generate_resume` does substitute ({EDUCATION} is
listed in the template contract but never handled by the code). -/
def resolvedTokens : List Str :=
  [kNAME, kCONTACT, kEMAIL, kNATIONALITY, kSUMMARY, kDEGREE, kINSTITUTION,
   kEDUYEAR, kCGPA, kSKILLS, kLANGUAGES, kCOMPANYNAME, kDURATION, kJOBTITLE,
   kJOBDESCRIPTION, kACHIEVEMENTS]

theorem resolvedTokens_cases : ∀ k ∈ resolvedTokens,
    k ∈ TOKENS ∧ (k ∈ scalar_keys ∨ k ∈ education_placeholders ∨ k = kSKILLS ∨
      k = kLANGUAGES ∨ k ∈ work_exp_placeholders) := by decide

/-- Main resolution theorem: on a segmented template with brace-free data and
at most one education-matching table and one work-matching table, no token
other than `{EDUCATION}` survives anywhere in any table cell. -/
theorem generate_resume_no_tokens {data : RData} {doc : Doc}
    (hsegB : tablesSegB doc.tables = true)
    (hbf : dataBF data = true)
    (hedu : (doc.tables.filter (fun t => !(t.filter eduRowMatch).isEmpty)).length ≤ 1)
    (hwork : (doc.tables.filter (fun t => !(t.filter workRowMatch).isEmpty)).length ≤ 1) :
    ∀ tbl ∈ (generate_resume data doc).tables, ∀ r ∈ tbl, ∀ c ∈ r,
      ∀ key ∈ resolvedTokens, ¬ Occurs key (cellText c) := by
  simp only [dataBF, Bool.and_eq_true] at hbf
  obtain ⟨⟨⟨⟨⟨⟨⟨⟨h1, h2⟩, h3⟩, h4⟩, h5⟩, h6⟩, h7⟩, h8⟩, h9⟩ := hbf
  have hseg0 : TablesSeg TOK doc.tables := tablesSegB_sound hsegB
  have hseg1 := stage1_seg h1 h2 h3 h4 h5 hseg0
  have hedu1 := le_trans (stage1_edu_count h1 h2 h3 h4 h5 hseg0) hedu
  have hseg2 := stage2_seg_count h8 hseg1 hedu1
  have hwork1 := le_trans (stage1_work_count h1 h2 h3 h4 h5 hseg0) hwork
  have hwork2 := le_trans (stage2_work_count h8 hseg1) hwork1
  have hseg3 := stage3_seg h6 h7 hseg2
  have hwork3 := le_trans (stage3_work_count h6 h7 hseg2) hwork2
  have hseg4 := stage4_seg_count h9 hseg3 hwork3
  intro tbl htbl r hr c hcmem key hkey
  have hkf := resolvedTokens_cases key hkey
  refine not_occurs_of_seg hkf.1 (seg_cellText (hseg4 tbl htbl r hr c hcmem)) ?_
  rintro ⟨⟨⟨⟨_, hnsk⟩, hned⟩, hnsl, hnll⟩, hnwk⟩
  rcases hkf.2 with h | h | h | h | h
  · exact hnsk h
  · exact hned h
  · exact hnsl h
  · exact hnll h
  · exact hnwk h

/-! ## Embedded model of `Text_Extraction.py`.

Boundary calls (python-docx / pdfminer extraction, OCR) are oracles: an
`Except Unit` value is `.error ()` when the call raises and `.ok v` when it
returns `v`.  The readers themselves are total functions of those oracles;
`none` models the `return None` paths. -/

def pyIsSpace (c : Char) : Bool :=
  c == ' ' || c == '\t' || c == '\n' || c == '\r' || c == '\x0b' || c == '\x0c'

/-- Python `str.strip()`. -/
def pyStrip (s : Str) : Str :=
  ((s.dropWhile pyIsSpace).reverse.dropWhile pyIsSpace).reverse

structure DocxFile where
  direct : Except Unit Str
  images : Except Unit (List Str)
deriving Repr

structure PdfFile where
  direct : Except Unit Str
  pages : Except Unit (List Str)
deriving Repr

/-- OCR fallback of `_read_docx_hybrid` (lines 60-84): join per-image OCR text
with newlines when any image was found, the empty string when none, `None`
when the OCR stage raises. -/
def docx_ocr (f : DocxFile) : Option Str :=
  match f.images with
  | .ok ocr_text => if !ocr_text.isEmpty then some (joinNl ocr_text) else some []
  | .error _ => none

/-- `_read_docx_hybrid` (lines 36-84): accept direct text iff it is non-empty
and its stripped length exceeds 100, else fall back to OCR; a raising direct
stage also falls back. -/
def read_docx_hybrid (f : DocxFile) : Option Str :=
  match f.direct with
  | .ok text =>
    if text ≠ [] ∧ (pyStrip text).length > 100 then some text else docx_ocr f
  | .error _ => docx_ocr f

/-- OCR fallback of `_read_pdf_hybrid` (lines 97-111): concatenate per-page
OCR text, each followed by a newline. -/
def pdf_ocr (f : PdfFile) : Option Str :=
  match f.pages with
  | .ok pages => some (pages.foldl (fun acc page => acc ++ page ++ ['\n']) [])
  | .error _ => none

/-- `_read_pdf_hybrid` (lines 86-111). -/
def read_pdf_hybrid (f : PdfFile) : Option Str :=
  match f.direct with
  | .ok text =>
    if text ≠ [] ∧ (pyStrip text).length > 100 then some text else pdf_ocr f
  | .error _ => pdf_ocr f

structure UploadIn where
  filename : Str
  docx : DocxFile
  pdf : PdfFile
  image : Except Unit Str
deriving Repr

/-- Python `str.endswith`. -/
def endsWith (suffix s : Str) : Bool := hasPref suffix.reverse s.reverse

/-- `ResumeParser.read_file` (lines 15-34): extension dispatch on the
lowercased filename; unsupported extensions report an error and return
`None`; the surrounding `try` turns an image-stage exception into `None`. -/
def read_file (u : UploadIn) : Option Str :=
  let lower := u.filename.map Char.toLower
  if endsWith ".docx".toList lower then read_docx_hybrid u.docx
  else if endsWith ".pdf".toList lower then read_pdf_hybrid u.pdf
  else if endsWith ".png".toList lower || endsWith ".jpg".toList lower ||
      endsWith ".jpeg".toList lower then
    match u.image with
    | .ok s => some s
    | .error _ => none
  else none

/-- C4: for every DOCX or PDF input, direct text whose stripped length exceeds
100 characters is returned as-is and the OCR oracle is never consulted (the
result does not depend on it); when the stripped length is at most 100, or the
direct stage raises, the OCR fallback's output becomes the result, even though
the direct text may be non-empty. -/
theorem c4_extraction_threshold (dtext : Str) (im im' pg pg' : Except Unit (List Str)) :
    ((pyStrip dtext).length > 100 →
      read_docx_hybrid ⟨.ok dtext, im⟩ = some dtext ∧
      read_docx_hybrid ⟨.ok dtext, im⟩ = read_docx_hybrid ⟨.ok dtext, im'⟩ ∧
      read_pdf_hybrid ⟨.ok dtext, pg⟩ = some dtext ∧
      read_pdf_hybrid ⟨.ok dtext, pg⟩ = read_pdf_hybrid ⟨.ok dtext, pg'⟩) ∧
    ((pyStrip dtext).length ≤ 100 →
      read_docx_hybrid ⟨.ok dtext, im⟩ = docx_ocr ⟨.ok dtext, im⟩ ∧
      read_pdf_hybrid ⟨.ok dtext, pg⟩ = pdf_ocr ⟨.ok dtext, pg⟩) ∧
    read_docx_hybrid ⟨.error (), im⟩ = docx_ocr ⟨.error (), im⟩ ∧
    read_pdf_hybrid ⟨.error (), pg⟩ = pdf_ocr ⟨.error (), pg⟩ := by
  refine ⟨?_, ?_, rfl, rfl⟩
  · intro hlen
    have hne : dtext ≠ [] := by
      intro h
      subst h
      simp [pyStrip] at hlen
    simp [read_docx_hybrid, read_pdf_hybrid, hne, hlen]
  · intro hlen
    have hno : ¬ (dtext ≠ [] ∧ (pyStrip dtext).length > 100) := by
      rintro ⟨_, hgt⟩
      omega
    constructor
    · show (if dtext ≠ [] ∧ (pyStrip dtext).length > 100 then some dtext
          else docx_ocr ⟨.ok dtext, im⟩) = docx_ocr ⟨.ok dtext, im⟩
      rw [if_neg hno]
    · show (if dtext ≠ [] ∧ (pyStrip dtext).length > 100 then some dtext
          else pdf_ocr ⟨.ok dtext, pg⟩) = pdf_ocr ⟨.ok dtext, pg⟩
      rw [if_neg hno]

set_option maxRecDepth 4000 in
theorem c4_extraction_threshold_witness :
    ((pyStrip (List.replicate 150 'a')).length > 100 ∧
      read_docx_hybrid ⟨.ok (List.replicate 150 'a'), .error ()⟩ =
        some (List.replicate 150 'a')) ∧
    ((pyStrip (List.replicate 20 'a')).length ≤ 100 ∧
      read_pdf_hybrid ⟨.ok (List.replicate 20 'a'), .ok ["OCRTEXT".toList]⟩ =
        pdf_ocr ⟨.ok (List.replicate 20 'a'), .ok ["OCRTEXT".toList]⟩) := by
  constructor
  · exact ⟨by decide,
      ((c4_extraction_threshold (List.replicate 150 'a') (.error ()) (.error ())
        (.ok []) (.ok [])).1 (by decide)).1⟩
  · exact ⟨by decide,
      ((c4_extraction_threshold (List.replicate 20 'a') (.ok []) (.ok [])
        (.ok ["OCRTEXT".toList]) (.ok [])).2.1 (by decide)).2⟩

/-- C7: the read operation never raises: an unsupported extension produces a
null result, an exception in a docx/pdf direct stage falls back to the OCR
stage, an exception in the OCR stage itself produces a null result, and a
docx fallback that finds no embedded images yields the empty string. -/
theorem c7_read_error_handling (u : UploadIn) (im pg : Except Unit (List Str))
    (d d' : Except Unit Str) :
    (endsWith ".docx".toList (u.filename.map Char.toLower) = false →
     endsWith ".pdf".toList (u.filename.map Char.toLower) = false →
     endsWith ".png".toList (u.filename.map Char.toLower) = false →
     endsWith ".jpg".toList (u.filename.map Char.toLower) = false →
     endsWith ".jpeg".toList (u.filename.map Char.toLower) = false →
     read_file u = none) ∧
    read_docx_hybrid ⟨.error (), im⟩ = docx_ocr ⟨.error (), im⟩ ∧
    read_pdf_hybrid ⟨.error (), pg⟩ = pdf_ocr ⟨.error (), pg⟩ ∧
    docx_ocr ⟨d, .error ()⟩ = none ∧
    pdf_ocr ⟨d', .error ()⟩ = none ∧
    docx_ocr ⟨d, .ok []⟩ = some [] := by
  refine ⟨?_, rfl, rfl, rfl, rfl, rfl⟩
  intro h1 h2 h3 h4 h5
  show (if endsWith ".docx".toList (u.filename.map Char.toLower) then read_docx_hybrid u.docx
    else if endsWith ".pdf".toList (u.filename.map Char.toLower) then read_pdf_hybrid u.pdf
    else if endsWith ".png".toList (u.filename.map Char.toLower) ||
        endsWith ".jpg".toList (u.filename.map Char.toLower) ||
        endsWith ".jpeg".toList (u.filename.map Char.toLower) then
      match u.image with
      | .ok s => some s
      | .error _ => none
    else none) = none
  rw [h1, h2, h3, h4, h5]
  rfl

theorem c7_read_error_handling_witness :
    (endsWith ".docx".toList ("resume.TXT".toList.map Char.toLower) = false ∧
     endsWith ".pdf".toList ("resume.TXT".toList.map Char.toLower) = false ∧
     endsWith ".png".toList ("resume.TXT".toList.map Char.toLower) = false ∧
     endsWith ".jpg".toList ("resume.TXT".toList.map Char.toLower) = false ∧
     endsWith ".jpeg".toList ("resume.TXT".toList.map Char.toLower) = false) ∧
    read_file ⟨"resume.TXT".toList, ⟨.error (), .error ()⟩, ⟨.error (), .error ()⟩,
      .ok []⟩ = none := by
  refine ⟨⟨by decide, by decide, by decide, by decide, by decide⟩, ?_⟩
  exact (c7_read_error_handling
    ⟨"resume.TXT".toList, ⟨.error (), .error ()⟩, ⟨.error (), .error ()⟩, .ok []⟩
    (.ok []) (.ok []) (.ok []) (.ok [])).1
    (by decide) (by decide) (by decide) (by decide) (by decide)

theorem set_get_eq {α : Type} : ∀ (l : List α) (i : Nat) (x : α),
    l.get? i = some x → l.set i x = l := by
  intro l
  induction l with
  | nil => intro i x h; simp at h
  | cons a l ih =>
    intro i x h
    cases i with
    | zero =>
      simp only [List.get?_cons_zero, Option.some.injEq] at h
      simp [h]
    | succ i =>
      simp only [List.get?_cons_succ] at h
      simp [List.set_cons_succ, ih i x h]

theorem rtp_noop {p : Para} {key value : Str}
    (h : ∀ r ∈ p.runs, hasSub key r.text = false) :
    replace_text_in_paragraph p key value = p := by
  unfold replace_text_in_paragraph
  have hmap : ∀ l : List Run, (∀ r ∈ l, hasSub key r.text = false) →
      l.map (fun r =>
        if hasSub key r.text then { r with text := pyReplace key value r.text } else r) = l := by
    intro l
    induction l with
    | nil => intro _; rfl
    | cons a l ih =>
      intro hl
      simp only [List.map_cons, hl a (by simp), Bool.false_eq_true, if_false]
      rw [ih (fun r hr => hl r (by simp [hr]))]
  rw [hmap p.runs h]

theorem rwbp_eq {cell : Cell} {i : Nat} {p : Para} (hp : cell.get? i = some p)
    (key : Str) (items : List Str) :
    replace_with_bullet_points cell i key items =
      match bulletOutcome p key items with
      | (some p', _) => cell.set i p'
      | (none, appended) => cell.eraseIdx i ++ appended := by
  unfold replace_with_bullet_points
  rw [hp]

def c2OtherPara : Para := { runs := [{ text := "X".toList }] }

def c2Cell : Cell := [{ runs := [{ text := kACHIEVEMENTS }] }, c2OtherPara]

/-- C2 counterexample: the claim puts the "Achievements:" header immediately
before the original placeholder paragraph's position.  With the placeholder
paragraph first of two in its cell, the paragraph at that position after
expansion is the unrelated second paragraph: the generated block was appended
at the end of the cell instead. -/
theorem c2_counterexample :
    (replace_with_bullet_points c2Cell 0 kACHIEVEMENTS ["A".toList]).get? 0 =
      some c2OtherPara ∧
    paraText c2OtherPara ≠ "Achievements:".toList := by decide

/-- C2 (amended): for a paragraph at index `i` of its cell containing the
achievements token in a run, expansion with a non-empty list removes the
original paragraph and APPENDS, at the end of the cell: a paragraph styled
like the original whose single run is "Achievements:" with the template run's
formatting and bold forced on, then one "• item" paragraph per item in order
with the template run's formatting, then exactly one empty paragraph. -/
theorem c2_achievements_expansion (cell : Cell) (i : Nat) (p : Para)
    (hp : cell.get? i = some p) (items : List Str) (hne : items ≠ [])
    (tr : Run) (hf : p.runs.find? (fun r => hasSub kACHIEVEMENTS r.text) = some tr) :
    replace_with_bullet_points cell i kACHIEVEMENTS items =
      cell.eraseIdx i ++
        achHeaderPara p tr :: (items.map (bulletPara p tr) ++ [freshPara]) ∧
    (achHeaderPara p tr).runs =
      [{ text := "Achievements:".toList,
         font := { copy_run_formatting tr.font {} with bold := some true } }] ∧
    (achHeaderPara p tr).style = p.style ∧ (achHeaderPara p tr).fmt = p.fmt ∧
    (∀ point, (bulletPara p tr point).runs =
        [{ text := "• ".toList ++ point,
           font := copy_run_formatting tr.font {} }] ∧
      (bulletPara p tr point).style = p.style ∧ (bulletPara p tr point).fmt = p.fmt) ∧
    freshPara.runs = [] := by
  have he : items.isEmpty = false := by
    cases items with
    | nil => exact absurd rfl hne
    | cons a l => rfl
  refine ⟨?_, rfl, rfl, rfl, fun point => ⟨rfl, rfl, rfl⟩, rfl⟩
  rw [rwbp_eq hp, bulletOutcome_found he hf]
  simp

theorem c2_achievements_expansion_witness :
    (c2Cell.get? 0 = some { runs := [{ text := kACHIEVEMENTS }] } ∧
      (["A".toList, "B".toList] : List Str) ≠ [] ∧
      ({ runs := [{ text := kACHIEVEMENTS }] } : Para).runs.find?
        (fun r => hasSub kACHIEVEMENTS r.text) = some { text := kACHIEVEMENTS }) ∧
    replace_with_bullet_points c2Cell 0 kACHIEVEMENTS ["A".toList, "B".toList] =
      c2Cell.eraseIdx 0 ++
        achHeaderPara { runs := [{ text := kACHIEVEMENTS }] } { text := kACHIEVEMENTS } ::
          (["A".toList, "B".toList].map
            (bulletPara { runs := [{ text := kACHIEVEMENTS }] } { text := kACHIEVEMENTS }) ++
            [freshPara]) := by
  refine ⟨⟨by decide, by decide, by decide⟩, ?_⟩
  exact (c2_achievements_expansion c2Cell 0 { runs := [{ text := kACHIEVEMENTS }] }
    (by decide) ["A".toList, "B".toList] (by decide) { text := kACHIEVEMENTS }
    (by decide)).1

/-- C8: bullet expansion with an empty item list replaces the token with the
empty string in the paragraph in place and keeps the paragraph (cell length
unchanged); and a token not wholly contained in any single run is silently
skipped: both the bullet expansion and the run-level replacement are no-ops. -/
theorem c8_bullet_edge_cases (cell : Cell) (i : Nat) (p : Para)
    (hp : cell.get? i = some p) (key : Str) (items : List Str) :
    (items = [] →
      replace_with_bullet_points cell i key items =
        cell.set i (replace_text_in_paragraph p key []) ∧
      (replace_with_bullet_points cell i key items).length = cell.length) ∧
    ((∀ r ∈ p.runs, hasSub key r.text = false) →
      replace_with_bullet_points cell i key items = cell) ∧
    (∀ (q : Para) (value : Str), (∀ r ∈ q.runs, hasSub key r.text = false) →
      replace_text_in_paragraph q key value = q) := by
  refine ⟨?_, ?_, fun q value hq => rtp_noop hq⟩
  · rintro rfl
    have heq : replace_with_bullet_points cell i key [] =
        cell.set i (replace_text_in_paragraph p key []) := by
      rw [rwbp_eq hp, bulletOutcome_empty (show ([] : List Str).isEmpty = true from rfl)]
    exact ⟨heq, by rw [heq, List.length_set]⟩
  · intro hno
    by_cases he : items.isEmpty = true
    · have hi : items = [] := List.isEmpty_iff.mp he
      subst hi
      rw [rwbp_eq hp, bulletOutcome_empty (show ([] : List Str).isEmpty = true from rfl)]
      rw [rtp_noop hno]
      exact set_get_eq cell i p hp
    · have he' : items.isEmpty = false := Bool.eq_false_iff.mpr he
      have hf : p.runs.find? (fun r => hasSub key r.text) = none := by
        rw [List.find?_eq_none]
        intro r hr
        simp [hno r hr]
      rw [rwbp_eq hp, bulletOutcome_noRun he' hf]
      exact set_get_eq cell i p hp

def c8wPara : Para := { runs := [{ text := "plain".toList }] }

def c8wCell : Cell := [{ runs := [{ text := kSKILLS }] }, c8wPara]

theorem c8_bullet_edge_cases_witness :
    (c8wCell.get? 1 = some c8wPara ∧
      (∀ r ∈ c8wPara.runs, hasSub kSKILLS r.text = false)) ∧
    replace_with_bullet_points c8wCell 1 kSKILLS ["A".toList] = c8wCell := by
  refine ⟨⟨by decide, by decide⟩, ?_⟩
  exact (c8_bullet_edge_cases c8wCell 1 c8wPara (by decide) kSKILLS
    ["A".toList]).2.1 (by decide)

def c9Cell : Cell := [{ runs := [{ text := kACHIEVEMENTS }] }]

/-- C9 counterexample: expanding ["A","B"] does not always yield exactly two
generated paragraphs: for the achievements token the expansion generates four
(header, two bullets, trailing empty), so the cell ends with four paragraphs
instead of the claimed two. -/
theorem c9_counterexample :
    (replace_with_bullet_points c9Cell 0 kACHIEVEMENTS
      ["A".toList, "B".toList]).length = 4 ∧ (4 : Nat) ≠ 2 := by decide

/-- C9 (amended): bullet expansion of ["A","B"] on a fresh template paragraph
containing the token in a run is deterministic and yields exactly the two
bullet paragraphs "• A" then "• B" in order — for every token other than the
achievements token; for the achievements token those two bullets are
additionally preceded by the header paragraph and followed by one empty
paragraph. -/
theorem c9_bullet_two_items (cell : Cell) (i : Nat) (p : Para)
    (hp : cell.get? i = some p) (key : Str) (tr : Run)
    (hf : p.runs.find? (fun r => hasSub key r.text) = some tr) (a b : Str) :
    (key ≠ kACHIEVEMENTS →
      replace_with_bullet_points cell i key [a, b] =
        cell.eraseIdx i ++ [bulletPara p tr a, bulletPara p tr b]) ∧
    (key = kACHIEVEMENTS →
      replace_with_bullet_points cell i key [a, b] =
        cell.eraseIdx i ++
          achHeaderPara p tr :: [bulletPara p tr a, bulletPara p tr b] ++ [freshPara]) ∧
    paraText (bulletPara p tr a) = "• ".toList ++ a ∧
    paraText (bulletPara p tr b) = "• ".toList ++ b ∧
    (∀ cell' (i' : Nat), cell' = cell → i' = i →
      replace_with_bullet_points cell' i' key [a, b] =
        replace_with_bullet_points cell i key [a, b]) := by
  refine ⟨?_, ?_, by simp [paraText, bulletPara, flat], by simp [paraText, bulletPara, flat],
    ?_⟩
  · intro hne
    rw [rwbp_eq hp, bulletOutcome_found (show ([a, b] : List Str).isEmpty = false from rfl) hf]
    simp [hne]
  · intro hach
    subst hach
    rw [rwbp_eq hp, bulletOutcome_found (show ([a, b] : List Str).isEmpty = false from rfl) hf]
    simp
  · intro cell' i' h1 h2
    rw [h1, h2]

theorem c9_bullet_two_items_witness :
    (c2Cell.get? 0 = some { runs := [{ text := kACHIEVEMENTS }] } ∧
      ({ runs := [{ text := kACHIEVEMENTS }] } : Para).runs.find?
        (fun r => hasSub kSKILLS r.text) = none) ∧
    ((c9Cell.get? 0 = some { runs := [{ text := kACHIEVEMENTS }] } ∧
      ({ runs := [{ text := kACHIEVEMENTS }] } : Para).runs.find?
        (fun r => hasSub kACHIEVEMENTS r.text) = some { text := kACHIEVEMENTS } ∧
      kACHIEVEMENTS = kACHIEVEMENTS) ∧
    replace_with_bullet_points c9Cell 0 kACHIEVEMENTS ["A".toList, "B".toList] =
      c9Cell.eraseIdx 0 ++
        achHeaderPara { runs := [{ text := kACHIEVEMENTS }] } { text := kACHIEVEMENTS } ::
          [bulletPara { runs := [{ text := kACHIEVEMENTS }] } { text := kACHIEVEMENTS }
              "A".toList,
            bulletPara { runs := [{ text := kACHIEVEMENTS }] } { text := kACHIEVEMENTS }
              "B".toList] ++ [freshPara]) := by
  refine ⟨⟨by decide, by decide⟩, ⟨by decide, by decide, rfl⟩, ?_⟩
  exact (c9_bullet_two_items c9Cell 0 { runs := [{ text := kACHIEVEMENTS }] }
    (by decide) kACHIEVEMENTS { text := kACHIEVEMENTS } (by decide)
    "A".toList "B".toList).2.1 rfl

/-- C10: `generate_resume` iterates only over the document's tables: the body
paragraphs outside any table are returned unchanged for every input, even
when they contain recognized placeholder tokens. -/
theorem c10_body_unchanged (data : RData) (doc : Doc) :
    (generate_resume data doc).body = doc.body := rfl

/-- C6: per repeating-block category, only the first table whose rows match
that category's placeholders is expanded; all tables after it — including
tables that do contain matching placeholders — are returned entirely
unchanged by that category's stage. -/
theorem c6_first_table_only (education : List EduEntry) (work : List WorkEntry)
    (preE : List Table) (tE : Table) (postE : List Table)
    (preW : List Table) (tW : Table) (postW : List Table)
    (hpreE : ∀ t' ∈ preE, (t'.filter eduRowMatch).isEmpty = true)
    (htE : (tE.filter eduRowMatch).isEmpty = false)
    (hpreW : ∀ t' ∈ preW, (t'.filter workRowMatch).isEmpty = true)
    (htW : (tW.filter workRowMatch).isEmpty = false) :
    stage2 education (preE ++ tE :: postE) =
      preE ++ expandEduTable tE education :: postE ∧
    stage4 work (preW ++ tW :: postW) =
      preW ++ expandWorkTable tW work :: postW :=
  ⟨stage2_split preE tE postE hpreE htE, stage4_split preW tW postW hpreW htW⟩

def cwTableEdu : Table := [[[{ runs := [{ text := kDEGREE }] }]]]

def cwTableWork : Table := [[[{ runs := [{ text := kCOMPANYNAME }] }]]]

def cwTablePlain : Table := [[[{ runs := [{ text := "X".toList }] }]]]

theorem c6_first_table_only_witness :
    ((∀ t' ∈ [cwTablePlain], (t'.filter eduRowMatch).isEmpty = true) ∧
      (cwTableEdu.filter eduRowMatch).isEmpty = false ∧
      (∀ t' ∈ [cwTablePlain], (t'.filter workRowMatch).isEmpty = true) ∧
      (cwTableWork.filter workRowMatch).isEmpty = false) ∧
    stage2 [] ([cwTablePlain] ++ cwTableEdu :: [cwTableEdu]) =
      [cwTablePlain] ++ expandEduTable cwTableEdu [] :: [cwTableEdu] ∧
    stage4 [] ([cwTablePlain] ++ cwTableWork :: [cwTableWork]) =
      [cwTablePlain] ++ expandWorkTable cwTableWork [] :: [cwTableWork] := by
  refine ⟨⟨by decide, by decide, by decide, by decide⟩, ?_⟩
  exact c6_first_table_only [] [] [cwTablePlain] cwTableEdu [cwTableEdu]
    [cwTablePlain] cwTableWork [cwTableWork] (by decide) (by decide) (by decide)
    (by decide)

def c1Table : Table := [[[{ runs := [{ text := "\x7bDEG\x7bDEGREE\x7dREE\x7d".toList }] }]]]

/-- C1 counterexample: a template table of one row whose single run is
"\x7bDEG\x7bDEGREE\x7dREE\x7d" — the {DEGREE} token sits wholly within one run, as the
claim requires — expanded with one entry whose degree is the empty string,
produces its 1 × 1 = 1 new row, but Python's left-to-right replace turns the
text into the literal token "{DEGREE}", so a placeholder token of the
category remains in the cloned row and the claim's full-substitution part
fails. -/
theorem c1_counterexample :
    hasSub kDEGREE (rowText ((c1Table.headD []))) = true ∧
    (expandEduTable c1Table [{}]).length = 1 * 1 ∧
    hasSub kDEGREE (rowText ((expandEduTable c1Table [{}]).headD [])) = true := by
  decide

/-- C1 (amended): for a table whose rows' run texts are segmented (brace-free
literals and whole tokens) and entries with brace-free field values, education
expansion yields exactly the non-matching original rows followed by N × R new
rows — one block of the R substituted template rows per entry, in entry
order — the new rows carry no education-category token, and zero entries
yield zero new rows with the template rows removed. -/
theorem c1_education_expansion (t : Table) (education : List EduEntry)
    (hseg : tableSegB t = true) (hbf : education.all eduBF = true) :
    expandEduTable t education =
      t.filter (fun r => !(eduRowMatch r)) ++ eduNewRows t education ∧
    eduNewRows t education =
      flat (education.map fun e => (t.filter eduRowMatch).map (substEduRow e)) ∧
    (eduNewRows t education).length =
      education.length * (t.filter eduRowMatch).length ∧
    (∀ r ∈ eduNewRows t education, ∀ k ∈ education_placeholders,
      ¬ Occurs k (rowText r)) ∧
    (education = [] → expandEduTable t [] = t.filter (fun r => !(eduRowMatch r))) := by
  refine ⟨expandEduTable_eq t education, rfl, eduNewRows_length t education, ?_, ?_⟩
  · intro r hr k hk
    have hmem : r ∈ expandEduTable t education := by
      rw [expandEduTable_eq]
      exact List.mem_append.mpr (Or.inr hr)
    have hrow := expandEduTable_seg hbf (tableSegB_sound hseg) r hmem
    exact not_occurs_of_seg (edu_keys_tokens k hk) (seg_rowText hrow)
      (fun hcon => hcon.2 hk)
  · intro he
    rw [expandEduTable_eq]
    subst he
    simp [eduNewRows, flat]

def c1wTable : Table :=
  [[[{ runs := [{ text := "Degree: ".toList }, { text := kDEGREE }] }]]]

theorem c1_education_expansion_witness :
    (tableSegB c1wTable = true ∧
      ([⟨"BSc".toList, "MIT".toList, "2020".toList, "3.9".toList⟩] :
        List EduEntry).all eduBF = true) ∧
    (eduNewRows c1wTable
        [⟨"BSc".toList, "MIT".toList, "2020".toList, "3.9".toList⟩]).length =
      1 * (c1wTable.filter eduRowMatch).length := by
  refine ⟨⟨by decide, by decide⟩, ?_⟩
  exact (c1_education_expansion c1wTable
    [⟨"BSc".toList, "MIT".toList, "2020".toList, "3.9".toList⟩]
    (by decide) (by decide)).2.2.1

def c5Doc : Doc :=
  { body := [], tables := [[[[{ runs := [{ text := "\x7bNA\x7bNAME\x7dME\x7d".toList }] }]]]] }

/-- C5 counterexample: with the name field null, scalar substitution replaces
{NAME} by the empty string inside the run "\x7bNA\x7bNAME\x7dME\x7d", and the junction of
the surrounding literal text forms the literal token "{NAME}" in the output —
so the output does contain the literal token at that position. -/
theorem c5_counterexample :
    ({ name := none : RData }).name = none ∧
    hasSub kNAME
      (cellText ((((generate_resume { name := none } c5Doc).tables.headD
        []).headD []).headD [])) = true := by decide

/-- C5 (amended): on a paragraph whose run texts are segmented and with all
scalar values brace-free, a null (or absent) scalar field is rendered as the
empty string — never the text "None" or "null" — and after the scalar pass
the paragraph text contains no occurrence of that field's token. -/
theorem c5_null_scalar (data : RData) (p : Para) (hseg : paraSegB p = true)
    (h1 : optBF data.name = true) (h2 : optBF data.contact_number = true)
    (h3 : optBF data.email = true) (h4 : optBF data.nationality = true)
    (h5 : optBF data.summary = true) :
    displayValue none = [] ∧
    (∀ kv ∈ simple_replacements_data data, kv.2 = none →
      ¬ Occurs kv.1 (paraText (scalarPass data p))) := by
  refine ⟨rfl, ?_⟩
  intro kv hkv _
  have hres := scalarPass_seg h1 h2 h3 h4 h5 (paraSegB_sound hseg)
  have hk1 : kv.1 ∈ scalar_keys ∧ kv.1 ∈ TOKENS := by
    simp only [simple_replacements_data, List.mem_cons, List.not_mem_nil,
      or_false] at hkv
    rcases hkv with rfl | rfl | rfl | rfl | rfl
    · exact ⟨(by decide : kNAME ∈ scalar_keys), kNAME_mem⟩
    · exact ⟨(by decide : kCONTACT ∈ scalar_keys), kCONTACT_mem⟩
    · exact ⟨(by decide : kEMAIL ∈ scalar_keys), kEMAIL_mem⟩
    · exact ⟨(by decide : kNATIONALITY ∈ scalar_keys), kNATIONALITY_mem⟩
    · exact ⟨(by decide : kSUMMARY ∈ scalar_keys), kSUMMARY_mem⟩
  exact not_occurs_of_seg hk1.2 (seg_paraText hres) (fun hcon => hcon.2 hk1.1)

def c5wPara : Para := { runs := [{ text := kNAME }] }

theorem c5_null_scalar_witness :
    (paraSegB c5wPara = true ∧ optBF (({} : RData)).name = true ∧
      (kNAME, (({} : RData)).name) ∈ simple_replacements_data {} ∧
      (({} : RData)).name = none) ∧
    ¬ Occurs kNAME (paraText (scalarPass {} c5wPara)) := by
  refine ⟨⟨by decide, by decide, by decide, by decide⟩, ?_⟩
  exact (c5_null_scalar {} c5wPara (by decide) (by decide) (by decide) (by decide)
    (by decide) (by decide)).2 (kNAME, none) (by decide) (by decide)

def c3Doc : Doc :=
  { body := [], tables := [[[[{ runs := [{ text := kEDUCATION }] }]]]] }

/-- C3 counterexample: {EDUCATION} is listed in the template file contract,
but `generate_resume` never substitutes it: on a template whose only table
cell holds exactly that token, the token survives the whole pipeline
literally, for any data mapping. -/
theorem c3_counterexample :
    kEDUCATION ∈ TOKENS ∧
    hasSub kEDUCATION
      (cellText ((((generate_resume {} c3Doc).tables.headD []).headD
        []).headD [])) = true := by decide

/-- A paragraph never contains two list-typed keys whose joint presence would
make the code re-read a removed paragraph (see `listKeysPass`). -/
def noDualListKeys (ts : List Table) : Bool :=
  ts.all fun t => t.all fun r => r.all fun c => c.all fun p =>
    !(hasSub kSKILLS (paraText p) && hasSub kLANGUAGES (paraText p)) &&
    !(hasSub kJOBDESCRIPTION (paraText p) && hasSub kACHIEVEMENTS (paraText p))

/-- C3 (amended): every recognized token except {EDUCATION} that occurs in a
table cell is resolved by `generate_resume` for every data mapping with
brace-free values (missing fields included), provided the template is
segmented (tokens wholly within single runs, braces only in tokens), each
repeating-block category matches at most one table, and no paragraph carries
two list-typed tokens at once: no such token remains anywhere in any table
cell of the output. -/
theorem c3_tokens_resolved {data : RData} {doc : Doc}
    (hseg : tablesSegB doc.tables = true) (hbf : dataBF data = true)
    (hedu : (doc.tables.filter (fun t => !(t.filter eduRowMatch).isEmpty)).length ≤ 1)
    (hwork : (doc.tables.filter (fun t => !(t.filter workRowMatch).isEmpty)).length ≤ 1)
    (hdual : noDualListKeys doc.tables = true) :
    ∀ tbl ∈ (generate_resume data doc).tables, ∀ r ∈ tbl, ∀ c ∈ r,
      ∀ key ∈ resolvedTokens, ¬ Occurs key (cellText c) :=
  fun tbl htbl r hr c hc key hkey =>
    generate_resume_no_tokens hseg hbf hedu hwork tbl htbl r hr c hc key hkey

def c3wDoc : Doc :=
  { body := [],
    tables := [[[[{ runs := [{ text := kNAME }] }]],
                [[{ runs := [{ text := kDEGREE }] }]]]] }

def c3wData : RData :=
  { name := some "Ann Lee".toList,
    education := [⟨"BSc".toList, "MIT".toList, "2020".toList, "3.9".toList⟩] }

theorem c3_tokens_resolved_witness :
    (tablesSegB c3wDoc.tables = true ∧ dataBF c3wData = true ∧
      (c3wDoc.tables.filter
        (fun t => !(t.filter eduRowMatch).isEmpty)).length ≤ 1 ∧
      (c3wDoc.tables.filter
        (fun t => !(t.filter workRowMatch).isEmpty)).length ≤ 1 ∧
      noDualListKeys c3wDoc.tables = true) ∧
    ¬ Occurs kNAME
      (cellText ((((generate_resume c3wData c3wDoc).tables.headD []).headD
        []).headD [])) := by
  refine ⟨⟨by decide, by decide, by decide, by decide, by decide⟩, ?_⟩
  exact @c3_tokens_resolved c3wData c3wDoc
    (by decide) (by decide) (by decide) (by decide) (by decide)
    ((generate_resume c3wData c3wDoc).tables.headD []) (by decide)
    (((generate_resume c3wData c3wDoc).tables.headD []).headD []) (by decide)
    ((((generate_resume c3wData c3wDoc).tables.headD []).headD []).headD [])
    (by decide) kNAME (by decide)
